import Mathlib

/-! Verification of android_frameworks_base: `uirenderer::Rect` and `DrmManagerClient`.

Shallow embedding of `libs/hwui/Rect.h` and `drm/libdrmframework/DrmManagerClient.cpp`
together with the properties proved about them. Definitions come first (parts 1 to 5), the
theorems follow. -/

/-! ## Part 1. `libs/hwui/Rect.h` -/

/-- A C++ `float` as far as the comparison operators of `Rect.h` can see it: either NaN, or a
value of a totally ordered domain `α`. The code of `Rect` only compares and copies coordinates,
it performs no arithmetic in the functions embedded here. -/
inductive Flt (α : Type) where
  | nan : Flt α
  | num (x : α) : Flt α
deriving DecidableEq

/-- C++ `a < b` on floats: false as soon as one operand is NaN. -/
def Flt.lt {α : Type} [LinearOrder α] : Flt α → Flt α → Bool
  | Flt.num x, Flt.num y => decide (x < y)
  | _, _ => false

/-- C++ `a > b` on floats: false as soon as one operand is NaN. -/
def Flt.gt {α : Type} [LinearOrder α] : Flt α → Flt α → Bool
  | Flt.num x, Flt.num y => decide (x > y)
  | _, _ => false

/-- C++ `a >= b` on floats: false as soon as one operand is NaN. -/
def Flt.ge {α : Type} [LinearOrder α] : Flt α → Flt α → Bool
  | Flt.num x, Flt.num y => decide (x ≥ y)
  | _, _ => false

/-- The struct `Rect` of `Rect.h`: four float fields. -/
structure Rect (α : Type) where
  left : Flt α
  top : Flt α
  right : Flt α
  bottom : Flt α
deriving DecidableEq

/-- `Rect::isEmpty`: `left >= right || top >= bottom`. -/
def Rect.isEmpty {α : Type} [LinearOrder α] (self : Rect α) : Bool :=
  self.left.ge self.right || self.top.ge self.bottom

/-- `Rect::intersects(float, float, float, float) const`. -/
def Rect.intersects {α : Type} [LinearOrder α] (self : Rect α)
    (left top right bottom : Flt α) : Bool :=
  left.lt right && top.lt bottom &&
    self.left.lt self.right && self.top.lt self.bottom &&
    self.left.lt right && left.lt self.right &&
    self.top.lt bottom && top.lt self.bottom

/-- `Rect::intersect(float, float, float, float)`: the returned pair is the C++ return value
and the value of `*this` after the call. -/
def Rect.intersect {α : Type} [LinearOrder α] (self : Rect α)
    (left top right bottom : Flt α) : Bool × Rect α :=
  if left.lt right && top.lt bottom && !self.isEmpty &&
      self.left.lt right && left.lt self.right &&
      self.top.lt bottom && top.lt self.bottom then
    let s1 := if self.left.lt left then { self with left := left } else self
    let s2 := if s1.top.lt top then { s1 with top := top } else s1
    let s3 := if s2.right.gt right then { s2 with right := right } else s2
    let s4 := if s3.bottom.gt bottom then { s3 with bottom := bottom } else s3
    (true, s4)
  else
    (false, self)

/-- `Rect::unionWith(const Rect&)`: the returned pair is the C++ return value and the value of
`*this` after the call. -/
def Rect.unionWith {α : Type} [LinearOrder α] (self r : Rect α) : Bool × Rect α :=
  if r.left.lt r.right && r.top.lt r.bottom then
    if self.left.lt self.right && self.top.lt self.bottom then
      let s1 := if self.left.gt r.left then { self with left := r.left } else self
      let s2 := if s1.top.gt r.top then { s1 with top := r.top } else s1
      let s3 := if s2.right.lt r.right then { s2 with right := r.right } else s2
      let s4 := if s3.bottom.lt r.bottom then { s3 with bottom := r.bottom } else s3
      (true, s4)
    else
      (true, { self with left := r.left, top := r.top, right := r.right, bottom := r.bottom })
  else
    (false, self)

/-- A rectangle all of whose coordinates are numbers (no NaN). -/
def Rect.ofNums {α : Type} (l t r b : α) : Rect α :=
  { left := Flt.num l, top := Flt.num t, right := Flt.num r, bottom := Flt.num b }

/-- C++ `a <= b` on floats, used only to state containment. -/
def Flt.le {α : Type} [LinearOrder α] : Flt α → Flt α → Bool
  | Flt.num x, Flt.num y => decide (x ≤ y)
  | _, _ => false

/-- Containment of rectangles: every edge of `inner` lies within the corresponding edge of
`outer`. -/
def Rect.containedIn {α : Type} [LinearOrder α] (inner outer : Rect α) : Bool :=
  outer.left.le inner.left && outer.top.le inner.top &&
    inner.right.le outer.right && inner.bottom.le outer.bottom


/-! ## Part 2. `drm/libdrmframework/DrmManagerClient.cpp` -/

/-- An address: the value of a pointer or reference argument that the client passes through
without looking at it (`DecryptHandle*`, `const DrmBuffer*`, `void*`, a listener, ...). -/
abbrev Ptr := Nat

/-- The identity of a `Mutex` object. -/
abbrev Mutex := Nat

/-- One operation of the client together with the arguments of the caller. The implementation
object has an operation of the same name taking the unique id first and then these arguments;
`openDecryptSessionUri` stands for the overload `openDecryptSession(const char* uri)`. -/
inductive Call where
  | setOnInfoListener (infoListener : Ptr)
  | getConstraints (path : Option String) (action : Int)
  | canHandle (path mimeType : String)
  | processDrmInfo (drmInfo : Ptr)
  | acquireDrmInfo (drmInfoRequest : Ptr)
  | saveRights (drmRights : Ptr) (rightsPath contentPath : String)
  | getOriginalMimeType (path : String)
  | getDrmObjectType (path mimeType : String)
  | checkRightsStatus (path : String) (action : Int)
  | consumeRights (decryptHandle : Ptr) (action : Int) (reserve : Bool)
  | setPlaybackStatus (decryptHandle : Ptr) (playbackStatus position : Int)
  | validateAction (path : String) (action : Int) (description : Ptr)
  | removeRights (path : String)
  | removeAllRights
  | openConvertSession (mimeType : String)
  | convertData (convertId : Int) (inputData : Ptr)
  | closeConvertSession (convertId : Int)
  | getAllSupportInfo (length drmSupportInfoArray : Ptr)
  | openDecryptSession (fd offset length : Int)
  | openDecryptSessionUri (uri : String)
  | closeDecryptSession (decryptHandle : Ptr)
  | initializeDecryptUnit (decryptHandle : Ptr) (decryptUnitId : Int) (headerInfo : Ptr)
  | decrypt (decryptHandle : Ptr) (decryptUnitId : Int) (encBuffer decBuffer IV : Ptr)
  | finalizeDecryptUnit (decryptHandle : Ptr) (decryptUnitId : Int)
  | pread (decryptHandle : Ptr) (buffer : Ptr) (numBytes offset : Int)
deriving DecidableEq

/-- The interface of `DrmManagerClientImpl` as `DrmManagerClient.cpp` uses it. The class itself
(`DrmManagerClientImpl.h`) is not part of the sources at hand, so it is a parameter: `σ` is the
state behind the implementation, `ρ` the type of the values its operations return.
`create uniqueId s` is the static `create(&mUniqueId)`: it receives the value stored in
`mUniqueId`, and returns the object pointer, the value it leaves in `mUniqueId`, and the state. -/
structure DrmManagerClientImpl (σ ρ : Type) where
  create : Int → σ → Ptr × Int × σ
  remove : Int → σ → σ
  addClient : Int → σ → σ
  removeClient : Int → σ → σ
  perform : Int → Call → σ → ρ × σ

/-- The data members of a `DrmManagerClient` object. -/
structure DrmManagerClient where
  mUniqueId : Int
  mDrmManagerClientImpl : Option Ptr
  mDecryptLock : Mutex
deriving DecidableEq

/-- What a member function of the client does that is visible from outside the object. -/
inductive Event where
  | acquire (m : Mutex)
  | release (m : Mutex)
  | invoke (uniqueId : Int) (c : Call)
  | returned (uniqueId : Int) (c : Call)
  | create (uniqueId : Int)
  | remove (uniqueId : Int)
  | addClient (uniqueId : Int)
  | removeClient (uniqueId : Int)
deriving DecidableEq

/-- The state a member function runs in: the object `*this`, the state behind the
implementation, and the events so far. -/
structure Frame (σ : Type) where
  self : DrmManagerClient
  impl : σ
  trace : List Event

/-- Record one event. -/
def Frame.emit {σ : Type} (s : Frame σ) (e : Event) : Frame σ :=
  { s with trace := s.trace ++ [e] }

/-- The expression `mDrmManagerClientImpl->op(mUniqueId, args...)`: read `mUniqueId`, enter the
operation, let it act on the implementation state, and come back with its value. -/
def forward {σ ρ : Type} (I : DrmManagerClientImpl σ ρ) (c : Call) (s : Frame σ) : ρ × Frame σ :=
  let s1 := s.emit (Event.invoke s.self.mUniqueId c)
  let out := I.perform s.self.mUniqueId c s1.impl
  (out.1, { s1 with impl := out.2 }.emit (Event.returned s.self.mUniqueId c))

/-- The statement `Mutex::Autolock _l(mDecryptLock);` in front of `return body;`: the guard locks
the mutex when it is constructed and unlocks that same mutex when the scope is left, after the
returned expression has been evaluated. -/
def autolock {σ ρ : Type} (body : Frame σ → ρ × Frame σ) (s : Frame σ) : ρ × Frame σ :=
  let s1 := s.emit (Event.acquire s.self.mDecryptLock)
  let out := body s1
  (out.1, out.2.emit (Event.release s.self.mDecryptLock))

/-- `DrmManagerClient::DrmManagerClient()`. The mutex member is constructed with the object; its
identity is `lock`. -/
def DrmManagerClient.ctor {σ ρ : Type} (I : DrmManagerClientImpl σ ρ) (lock : Mutex)
    (impl : σ) (trace : List Event) : Frame σ :=
  let self0 : DrmManagerClient :=
    { mUniqueId := 0, mDrmManagerClientImpl := none, mDecryptLock := lock }
  let created := I.create self0.mUniqueId impl
  let self1 : DrmManagerClient :=
    { self0 with mUniqueId := created.2.1, mDrmManagerClientImpl := some created.1 }
  { self := self1
    impl := I.addClient self1.mUniqueId created.2.2
    trace := trace ++ [Event.create self1.mUniqueId, Event.addClient self1.mUniqueId] }

/-- `DrmManagerClient::~DrmManagerClient()`. -/
def DrmManagerClient.dtor {σ ρ : Type} (I : DrmManagerClientImpl σ ρ) (s : Frame σ) : Frame σ :=
  let s1 : Frame σ :=
    { s with impl := I.remove s.self.mUniqueId s.impl
             trace := s.trace ++ [Event.remove s.self.mUniqueId] }
  let s2 : Frame σ :=
    { s1 with impl := I.removeClient s1.self.mUniqueId s1.impl
              trace := s1.trace ++ [Event.removeClient s1.self.mUniqueId] }
  { s2 with self := { s2.self with mDrmManagerClientImpl := none } }

/-- `DrmManagerClient::setOnInfoListener`. -/
def DrmManagerClient.setOnInfoListener {σ ρ : Type} (I : DrmManagerClientImpl σ ρ)
    (infoListener : Ptr) : Frame σ → ρ × Frame σ :=
  forward I (Call.setOnInfoListener infoListener)

/-- `DrmManagerClient::getConstraints`. -/
def DrmManagerClient.getConstraints {σ ρ : Type} (I : DrmManagerClientImpl σ ρ)
    (path : Option String) (action : Int) : Frame σ → ρ × Frame σ :=
  forward I (Call.getConstraints path action)

/-- `DrmManagerClient::canHandle`. -/
def DrmManagerClient.canHandle {σ ρ : Type} (I : DrmManagerClientImpl σ ρ)
    (path mimeType : String) : Frame σ → ρ × Frame σ :=
  forward I (Call.canHandle path mimeType)

/-- `DrmManagerClient::processDrmInfo`. -/
def DrmManagerClient.processDrmInfo {σ ρ : Type} (I : DrmManagerClientImpl σ ρ)
    (drmInfo : Ptr) : Frame σ → ρ × Frame σ :=
  forward I (Call.processDrmInfo drmInfo)

/-- `DrmManagerClient::acquireDrmInfo`. -/
def DrmManagerClient.acquireDrmInfo {σ ρ : Type} (I : DrmManagerClientImpl σ ρ)
    (drmInfoRequest : Ptr) : Frame σ → ρ × Frame σ :=
  forward I (Call.acquireDrmInfo drmInfoRequest)

/-- `DrmManagerClient::saveRights`. -/
def DrmManagerClient.saveRights {σ ρ : Type} (I : DrmManagerClientImpl σ ρ)
    (drmRights : Ptr) (rightsPath contentPath : String) : Frame σ → ρ × Frame σ :=
  forward I (Call.saveRights drmRights rightsPath contentPath)

/-- `DrmManagerClient::getOriginalMimeType`. -/
def DrmManagerClient.getOriginalMimeType {σ ρ : Type} (I : DrmManagerClientImpl σ ρ)
    (path : String) : Frame σ → ρ × Frame σ :=
  forward I (Call.getOriginalMimeType path)

/-- `DrmManagerClient::getDrmObjectType`. -/
def DrmManagerClient.getDrmObjectType {σ ρ : Type} (I : DrmManagerClientImpl σ ρ)
    (path mimeType : String) : Frame σ → ρ × Frame σ :=
  forward I (Call.getDrmObjectType path mimeType)

/-- `DrmManagerClient::checkRightsStatus`. -/
def DrmManagerClient.checkRightsStatus {σ ρ : Type} (I : DrmManagerClientImpl σ ρ)
    (path : String) (action : Int) : Frame σ → ρ × Frame σ :=
  forward I (Call.checkRightsStatus path action)

/-- `DrmManagerClient::consumeRights`. -/
def DrmManagerClient.consumeRights {σ ρ : Type} (I : DrmManagerClientImpl σ ρ)
    (decryptHandle : Ptr) (action : Int) (reserve : Bool) : Frame σ → ρ × Frame σ :=
  autolock (forward I (Call.consumeRights decryptHandle action reserve))

/-- `DrmManagerClient::setPlaybackStatus`. -/
def DrmManagerClient.setPlaybackStatus {σ ρ : Type} (I : DrmManagerClientImpl σ ρ)
    (decryptHandle : Ptr) (playbackStatus position : Int) : Frame σ → ρ × Frame σ :=
  forward I (Call.setPlaybackStatus decryptHandle playbackStatus position)

/-- `DrmManagerClient::validateAction`. -/
def DrmManagerClient.validateAction {σ ρ : Type} (I : DrmManagerClientImpl σ ρ)
    (path : String) (action : Int) (description : Ptr) : Frame σ → ρ × Frame σ :=
  forward I (Call.validateAction path action description)

/-- `DrmManagerClient::removeRights`. -/
def DrmManagerClient.removeRights {σ ρ : Type} (I : DrmManagerClientImpl σ ρ)
    (path : String) : Frame σ → ρ × Frame σ :=
  forward I (Call.removeRights path)

/-- `DrmManagerClient::removeAllRights`. -/
def DrmManagerClient.removeAllRights {σ ρ : Type} (I : DrmManagerClientImpl σ ρ) :
    Frame σ → ρ × Frame σ :=
  forward I Call.removeAllRights

/-- `DrmManagerClient::openConvertSession`. -/
def DrmManagerClient.openConvertSession {σ ρ : Type} (I : DrmManagerClientImpl σ ρ)
    (mimeType : String) : Frame σ → ρ × Frame σ :=
  forward I (Call.openConvertSession mimeType)

/-- `DrmManagerClient::convertData`. -/
def DrmManagerClient.convertData {σ ρ : Type} (I : DrmManagerClientImpl σ ρ)
    (convertId : Int) (inputData : Ptr) : Frame σ → ρ × Frame σ :=
  forward I (Call.convertData convertId inputData)

/-- `DrmManagerClient::closeConvertSession`. -/
def DrmManagerClient.closeConvertSession {σ ρ : Type} (I : DrmManagerClientImpl σ ρ)
    (convertId : Int) : Frame σ → ρ × Frame σ :=
  forward I (Call.closeConvertSession convertId)

/-- `DrmManagerClient::getAllSupportInfo`. -/
def DrmManagerClient.getAllSupportInfo {σ ρ : Type} (I : DrmManagerClientImpl σ ρ)
    (length drmSupportInfoArray : Ptr) : Frame σ → ρ × Frame σ :=
  forward I (Call.getAllSupportInfo length drmSupportInfoArray)

/-- `DrmManagerClient::openDecryptSession(int fd, int offset, int length)`. -/
def DrmManagerClient.openDecryptSession {σ ρ : Type} (I : DrmManagerClientImpl σ ρ)
    (fd offset length : Int) : Frame σ → ρ × Frame σ :=
  forward I (Call.openDecryptSession fd offset length)

/-- `DrmManagerClient::openDecryptSession(const char* uri)`. -/
def DrmManagerClient.openDecryptSessionUri {σ ρ : Type} (I : DrmManagerClientImpl σ ρ)
    (uri : String) : Frame σ → ρ × Frame σ :=
  forward I (Call.openDecryptSessionUri uri)

/-- `DrmManagerClient::closeDecryptSession`. -/
def DrmManagerClient.closeDecryptSession {σ ρ : Type} (I : DrmManagerClientImpl σ ρ)
    (decryptHandle : Ptr) : Frame σ → ρ × Frame σ :=
  forward I (Call.closeDecryptSession decryptHandle)

/-- `DrmManagerClient::initializeDecryptUnit`. -/
def DrmManagerClient.initializeDecryptUnit {σ ρ : Type} (I : DrmManagerClientImpl σ ρ)
    (decryptHandle : Ptr) (decryptUnitId : Int) (headerInfo : Ptr) : Frame σ → ρ × Frame σ :=
  autolock (forward I (Call.initializeDecryptUnit decryptHandle decryptUnitId headerInfo))

/-- `DrmManagerClient::decrypt`. -/
def DrmManagerClient.decrypt {σ ρ : Type} (I : DrmManagerClientImpl σ ρ)
    (decryptHandle : Ptr) (decryptUnitId : Int) (encBuffer decBuffer IV : Ptr) :
    Frame σ → ρ × Frame σ :=
  autolock (forward I (Call.decrypt decryptHandle decryptUnitId encBuffer decBuffer IV))

/-- `DrmManagerClient::finalizeDecryptUnit`. -/
def DrmManagerClient.finalizeDecryptUnit {σ ρ : Type} (I : DrmManagerClientImpl σ ρ)
    (decryptHandle : Ptr) (decryptUnitId : Int) : Frame σ → ρ × Frame σ :=
  autolock (forward I (Call.finalizeDecryptUnit decryptHandle decryptUnitId))

/-- `DrmManagerClient::pread`. -/
def DrmManagerClient.pread {σ ρ : Type} (I : DrmManagerClientImpl σ ρ)
    (decryptHandle : Ptr) (buffer : Ptr) (numBytes offset : Int) : Frame σ → ρ × Frame σ :=
  autolock (forward I (Call.pread decryptHandle buffer numBytes offset))

/-- A call of a member function by name: each `Call` runs the member function of that name
with the arguments it carries. -/
def DrmManagerClient.call {σ ρ : Type} (I : DrmManagerClientImpl σ ρ) :
    Call → Frame σ → ρ × Frame σ
  | Call.setOnInfoListener l => DrmManagerClient.setOnInfoListener I l
  | Call.getConstraints p a => DrmManagerClient.getConstraints I p a
  | Call.canHandle p m => DrmManagerClient.canHandle I p m
  | Call.processDrmInfo d => DrmManagerClient.processDrmInfo I d
  | Call.acquireDrmInfo d => DrmManagerClient.acquireDrmInfo I d
  | Call.saveRights d r c => DrmManagerClient.saveRights I d r c
  | Call.getOriginalMimeType p => DrmManagerClient.getOriginalMimeType I p
  | Call.getDrmObjectType p m => DrmManagerClient.getDrmObjectType I p m
  | Call.checkRightsStatus p a => DrmManagerClient.checkRightsStatus I p a
  | Call.consumeRights h a r => DrmManagerClient.consumeRights I h a r
  | Call.setPlaybackStatus h p q => DrmManagerClient.setPlaybackStatus I h p q
  | Call.validateAction p a d => DrmManagerClient.validateAction I p a d
  | Call.removeRights p => DrmManagerClient.removeRights I p
  | Call.removeAllRights => DrmManagerClient.removeAllRights I
  | Call.openConvertSession m => DrmManagerClient.openConvertSession I m
  | Call.convertData c d => DrmManagerClient.convertData I c d
  | Call.closeConvertSession c => DrmManagerClient.closeConvertSession I c
  | Call.getAllSupportInfo l a => DrmManagerClient.getAllSupportInfo I l a
  | Call.openDecryptSession f o l => DrmManagerClient.openDecryptSession I f o l
  | Call.openDecryptSessionUri u => DrmManagerClient.openDecryptSessionUri I u
  | Call.closeDecryptSession h => DrmManagerClient.closeDecryptSession I h
  | Call.initializeDecryptUnit h u d => DrmManagerClient.initializeDecryptUnit I h u d
  | Call.decrypt h u e d v => DrmManagerClient.decrypt I h u e d v
  | Call.finalizeDecryptUnit h u => DrmManagerClient.finalizeDecryptUnit I h u
  | Call.pread h b n o => DrmManagerClient.pread I h b n o

/-- The decrypt-sensitive operation set named by the specification:
consumeRights, initializeDecryptUnit, decrypt, finalizeDecryptUnit and pread. -/
def Call.decryptSensitive : Call → Bool
  | Call.consumeRights _ _ _ => true
  | Call.initializeDecryptUnit _ _ _ => true
  | Call.decrypt _ _ _ _ _ => true
  | Call.finalizeDecryptUnit _ _ => true
  | Call.pread _ _ _ _ => true
  | _ => false

/-- Run a sequence of client calls one after the other on the same object, collecting the
returned values. -/
def DrmManagerClient.callAll {σ ρ : Type} (I : DrmManagerClientImpl σ ρ) :
    List Call → Frame σ → List ρ × Frame σ
  | [], s => ([], s)
  | c :: cs, s =>
    let out := DrmManagerClient.call I c s
    let tl := DrmManagerClient.callAll I cs out.2
    (out.1 :: tl.1, tl.2)

/-- Verbatim forwarding as the specification words it: the implementation is handed, one
after the other, the same-named operations with unique id `uniqueId` and the arguments of the
caller. This is the reference the client is compared with. -/
def DrmManagerClientImpl.performAll {σ ρ : Type} (I : DrmManagerClientImpl σ ρ) (uniqueId : Int) :
    List Call → σ → List ρ × σ
  | [], s => ([], s)
  | c :: cs, s =>
    let out := I.perform uniqueId c s
    let tl := I.performAll uniqueId cs out.2
    (out.1 :: tl.1, tl.2)

/-- The implementation operations a trace enters, in order. -/
def invocations : List Event → List (Int × Call)
  | [] => []
  | Event.invoke u c :: es => (u, c) :: invocations es
  | _ :: es => invocations es

/-! ## Part 4. Several client objects over one implementation -/

/-- The client objects of a process, by address (`none` once destroyed), the state behind
the implementation, and the events so far. -/
structure System (σ : Type) where
  objects : List (Option DrmManagerClient)
  impl : σ
  trace : List Event

/-- What the program around the clients can do with them: construct one more, destroy one, or
call a member function of one. -/
inductive Op where
  | construct
  | destruct (obj : Nat)
  | call (obj : Nat) (c : Call)
deriving DecidableEq

/-- The system with the frame of a member function of object `obj` written back. -/
def System.store {σ : Type} (sys : System σ) (obj : Nat) (slot : Option DrmManagerClient)
    (f : Frame σ) : System σ :=
  { objects := sys.objects.set obj slot, impl := f.impl, trace := f.trace }

/-- One step of the program; the value is the one a member function returned. A step that
touches an object that does not exist (any more) is not a step of a C++ program: `none`. The
mutex of a new object is identified by the address of the object. -/
def System.step {σ ρ : Type} (I : DrmManagerClientImpl σ ρ) (sys : System σ) :
    Op → Option (Option ρ × System σ)
  | Op.construct =>
    let f := DrmManagerClient.ctor I sys.objects.length sys.impl sys.trace
    some (none, { objects := sys.objects ++ [some f.self], impl := f.impl, trace := f.trace })
  | Op.destruct obj =>
    match sys.objects[obj]? with
    | some (some cl) =>
      some (none, sys.store obj none
        (DrmManagerClient.dtor I { self := cl, impl := sys.impl, trace := sys.trace }))
    | _ => none
  | Op.call obj c =>
    match sys.objects[obj]? with
    | some (some cl) =>
      let out := DrmManagerClient.call I c { self := cl, impl := sys.impl, trace := sys.trace }
      some (some out.1, sys.store obj (some out.2.self) out.2)
    | _ => none

/-- A sequence of steps. -/
def System.run {σ ρ : Type} (I : DrmManagerClientImpl σ ρ) : List Op → System σ → Option (System σ)
  | [], sys => some sys
  | op :: ops, sys =>
    match System.step I sys op with
    | none => none
    | some out => System.run I ops out.2

/-- The system before anything was constructed. -/
def System.init {σ : Type} (impl : σ) : System σ :=
  { objects := [], impl := impl, trace := [] }

/-- The number of client objects that exist. -/
def System.liveCount {σ : Type} (sys : System σ) : Nat :=
  (sys.objects.filter Option.isSome).length

/-- Number of constructions (attaches) in a sequence of steps. -/
def attaches (ops : List Op) : Nat :=
  (ops.filter (fun op => decide (op = Op.construct))).length

/-- Number of destructions (detaches) in a sequence of steps. -/
def detaches (ops : List Op) : Nat :=
  (ops.filter (fun op => match op with
    | Op.destruct _ => true
    | _ => false)).length

/-- The effect of one step on the question whether unit `u` of handle `h` has been
initialized and not finalized since: a call `initializeDecryptUnit(h, u, ...)` makes it true, a
call `finalizeDecryptUnit(h, u)` makes it false, any other step leaves it. -/
def unitStep (h : Ptr) (u : Int) (acc : Bool) : Op → Bool
  | Op.call _ (Call.initializeDecryptUnit h1 u1 _) => if h1 = h ∧ u1 = u then true else acc
  | Op.call _ (Call.finalizeDecryptUnit h1 u1) => if h1 = h ∧ u1 = u then false else acc
  | _ => acc

/-- Whether, in a sequence of steps, some call `initializeDecryptUnit(h, u, ...)` occurs that
no call `finalizeDecryptUnit(h, u)` follows. -/
def unitInitialized (h : Ptr) (u : Int) (ops : List Op) : Bool :=
  ops.foldl (unitStep h u) false

/-! ## Part 5. The session-management core, modelled from the specification -/

/-- Modelled from the spec: the error taxonomy of section 7, and success. `DrmManagerClientImpl`
and the layers behind it are not among the sources at hand. -/
inductive Status where
  | ok
  | invalidSession
  | unsupportedContent
  | unsupportedFormat
  | rightsRequired
  | rightsExpired
  | rightsExhausted
  | ioError
  | backendFailure (code : Int)
  | protocolViolation
deriving DecidableEq

/-- Modelled from the spec: the values the operations of section 4 hand back; the class
`DrmManagerClientImpl` is not among the sources at hand. A status, the answer of a probe, a
decrypt handle, or some other datum. -/
inductive Reply where
  | status (s : Status)
  | flag (b : Bool)
  | handle (decryptHandle : Ptr)
  | data (v : Int)
deriving DecidableEq

/-- Modelled from the spec: the calls the Decrypt Session State Machine makes on the backend
(section 6: openSession, initUnit, decryptUnit, finalizeUnit, closeSession); the backend layer
is not among the sources at hand. -/
inductive BackendCall where
  | openSession (decryptHandle : Ptr)
  | initUnit (decryptHandle : Ptr) (decryptUnitId : Int)
  | decryptUnit (decryptHandle : Ptr) (decryptUnitId : Int)
  | finalizeUnit (decryptHandle : Ptr) (decryptUnitId : Int)
  | closeSession (decryptHandle : Ptr)
deriving DecidableEq

/-- Modelled from the spec: a ClientSession of section 3, which owns a UniqueId and an optional
info-listener reference; the registry is not among the sources at hand. -/
structure ClientSession where
  uniqueId : Int
  listener : Option Ptr
deriving DecidableEq

/-- Modelled from the spec: the state of one open DecryptHandle of section 3, namely the
ClientSession that issued it and the decrypt units that are in UNIT_READY; the state machine
is not among the sources at hand. -/
structure DecryptSession where
  owner : Int
  ready : List Int
deriving DecidableEq

/-- Modelled from the spec: what the core takes from outside and what the specification leaves
open. `pick` is the choice of the Unique Identity Allocator, which returns a value not
currently in use (section 4.1); `canHandle` is the capability resolver (`selectBackend` finds
a backend); `answer` is what the backend and the components in front of it (rights resolver,
conversion pipeline) answer to an operation, acting on their own state `τ`; `detach` is their
forced clean-up when a client goes away (section 5). None of them is among the sources at
hand. -/
structure Surroundings (τ : Type) where
  pick : List Int → Int
  pick_fresh : ∀ used : List Int, pick used ∉ used
  canHandle : String → String → Bool
  answer : Int → Call → τ → Reply × τ
  detach : Int → τ → τ

/-- Modelled from the spec: the state of the session-management core, which is not among the
sources at hand: the ids the allocator has handed out and not been given back, the registry of
ClientSessions, the open decrypt handles (handles are numbered from `nextHandle` on and never
issued twice, so that a stale handle is rejected), the calls made on the backend so far, and
the state of the components that are not detailed here (rights resolver, conversion pipeline,
backend). -/
structure Core (τ : Type) where
  inUse : List Int
  sessions : List ClientSession
  nextHandle : Ptr
  handles : Ptr → Option DecryptSession
  backendLog : List BackendCall
  rest : τ

/-- Modelled from the spec: the core before any client attached; `DrmManagerClientImpl` is not
among the sources at hand. Handle 0 is the null pointer and is never issued. -/
def Core.init {τ : Type} (rest : τ) : Core τ :=
  { inUse := [], sessions := [], nextHandle := 1, handles := fun _ => none, backendLog := [],
    rest := rest }

/-- Modelled from the spec: whether a UniqueId is known to the registry (section 4.2), which is
not among the sources at hand. -/
def Core.known {τ : Type} (k : Core τ) (uniqueId : Int) : Bool :=
  decide (uniqueId ∈ k.sessions.map ClientSession.uniqueId)

/-- Modelled from the spec: `allocate()` of section 4.1, reached through
`DrmManagerClientImpl::create(&uniqueId)`, which is not among the sources at hand. It returns a
value not currently in use: an id is free once it has been released and no ClientSession
references it. The object pointer returned is not null. -/
def Core.create {τ : Type} (E : Surroundings τ) (_uniqueId : Int) (k : Core τ) :
    Ptr × Int × Core τ :=
  let id := E.pick (k.inUse ++ k.sessions.map ClientSession.uniqueId)
  (1, id, { k with inUse := id :: k.inUse })

/-- Modelled from the spec: `release(UniqueId)` of section 4.1, reached through
`DrmManagerClientImpl::remove(uniqueId)`, which is not among the sources at hand. -/
def Core.remove {τ : Type} (uniqueId : Int) (k : Core τ) : Core τ :=
  { k with inUse := k.inUse.filter (fun i => decide (i ≠ uniqueId)) }

/-- Modelled from the spec: the registration half of `attach()` of section 4.2, reached through
`addClient(uniqueId)`, which is not among the sources at hand: it creates the ClientSession of
the id on first attach. -/
def Core.addClient {τ : Type} (uniqueId : Int) (k : Core τ) : Core τ :=
  if k.known uniqueId then k
  else { k with sessions := { uniqueId := uniqueId, listener := none } :: k.sessions }

/-- Modelled from the spec: the backend calls that close one decrypt session: every unit still
in UNIT_READY is finalized, then the session is closed (section 4.4, closeDecryptSession). The
state machine is not among the sources at hand. -/
def closeLog (h : Ptr) (d : DecryptSession) : List BackendCall :=
  d.ready.map (BackendCall.finalizeUnit h) ++ [BackendCall.closeSession h]

/-- Modelled from the spec: the backend calls that force-close every open handle of a client
(section 5, resource ownership); the state machine is not among the sources at hand. -/
def Core.forceCloseLog {τ : Type} (k : Core τ) (uniqueId : Int) : List BackendCall :=
  ((List.range k.nextHandle).map (fun h =>
    match k.handles h with
    | some d => if d.owner = uniqueId then closeLog h d else []
    | none => [])).flatten

/-- Modelled from the spec: `detach(UniqueId)` of section 4.2, reached through
`removeClient(uniqueId)`, which is not among the sources at hand: a no-op for an unknown id;
otherwise the handles still open under the id are force-closed (section 5) and the
ClientSession is destroyed. -/
def Core.removeClient {τ : Type} (E : Surroundings τ) (uniqueId : Int) (k : Core τ) : Core τ :=
  if k.known uniqueId then
    { k with
      sessions := k.sessions.filter (fun s => decide (s.uniqueId ≠ uniqueId))
      handles := fun h =>
        match k.handles h with
        | some d => if d.owner = uniqueId then none else some d
        | none => none
      backendLog := k.backendLog ++ k.forceCloseLog uniqueId
      rest := E.detach uniqueId k.rest }
  else k

/-- Modelled from the spec: an operation that is handed on to the backend and the components
in front of it (section 6), which are not among the sources at hand. -/
def Core.ask {τ : Type} (E : Surroundings τ) (uniqueId : Int) (c : Call) (k : Core τ) :
    Reply × Core τ :=
  ((E.answer uniqueId c k.rest).1, { k with rest := (E.answer uniqueId c k.rest).2 })

/-- Modelled from the spec: the check in front of every operation on a decrypt handle, whose
code is not among the sources at hand: an unknown UniqueId or an unknown (never opened, or
closed) handle fails with InvalidSession (section 7). -/
def Core.onHandle {τ : Type} (k : Core τ) (uniqueId : Int) (h : Ptr)
    (body : DecryptSession → Reply × Core τ) : Reply × Core τ :=
  if k.known uniqueId then
    match k.handles h with
    | some d => body d
    | none => (Reply.status Status.invalidSession, k)
  else (Reply.status Status.invalidSession, k)

/-- Modelled from the spec: the record of the calls made on the backend of section 6, which
is not among the sources at hand; `calls` are appended to it. -/
def Core.log {τ : Type} (k : Core τ) (calls : List BackendCall) : Core τ :=
  { k with backendLog := k.backendLog ++ calls }

/-- Modelled from the spec: `openDecryptSession` of section 4.4, whose code is not among the
sources at hand: when the backend accepts the content source, a handle that was never issued
before is bound to it, with no unit initialized; otherwise the failure is handed back
(UnsupportedContent, RightsRequired). -/
def Core.openDecrypt {τ : Type} (E : Surroundings τ) (uniqueId : Int) (c : Call) (k : Core τ) :
    Reply × Core τ :=
  if k.known uniqueId then
    match (Core.ask E uniqueId c k).1 with
    | Reply.status Status.ok =>
      (Reply.handle k.nextHandle,
        { (Core.ask E uniqueId c k).2.log [BackendCall.openSession k.nextHandle] with
          nextHandle := k.nextHandle + 1
          handles := fun h =>
            if h = k.nextHandle then some { owner := uniqueId, ready := [] } else k.handles h })
    | r => (r, (Core.ask E uniqueId c k).2)
  else (Reply.status Status.invalidSession, k)

/-- Modelled from the spec: the operations of sections 4.2 to 4.5 as `DrmManagerClientImpl`
offers them; the class is not among the sources at hand.
* `canHandle` is a pure capability probe.
* `setOnInfoListener` replaces the listener of a known id.
* `initializeDecryptUnit` puts the unit into UNIT_READY when the backend accepts the header;
  re-initializing a ready unit is allowed.
* `decrypt` requires the unit to be in UNIT_READY, else ProtocolViolation; the unit stays in
  UNIT_READY whatever the backend answers.
* `finalizeDecryptUnit` makes a ready unit uninitialized.
* `closeDecryptSession` finalizes all units, closes the backend session and invalidates the
  handle.
* `consumeRights`, `setPlaybackStatus` and `pread` use a handle and have no effect on the
  state machine; the remaining operations belong to the rights resolver and the conversion
  pipeline. -/
def Core.perform {τ : Type} (E : Surroundings τ) (uniqueId : Int) (c : Call) (k : Core τ) :
    Reply × Core τ :=
  match c with
  | Call.canHandle path mimeType => (Reply.flag (E.canHandle path mimeType), k)
  | Call.setOnInfoListener infoListener =>
    if k.known uniqueId then
      (Reply.status Status.ok,
        { k with sessions := k.sessions.map (fun s =>
            if s.uniqueId = uniqueId then { s with listener := some infoListener } else s) })
    else (Reply.status Status.invalidSession, k)
  | Call.openDecryptSession _ _ _ => Core.openDecrypt E uniqueId c k
  | Call.openDecryptSessionUri _ => Core.openDecrypt E uniqueId c k
  | Call.initializeDecryptUnit h u _ =>
    k.onHandle uniqueId h (fun d =>
      match (Core.ask E uniqueId c k).1 with
      | Reply.status Status.ok =>
        (Reply.status Status.ok,
          { (Core.ask E uniqueId c k).2.log [BackendCall.initUnit h u] with
            handles := fun h1 =>
              if h1 = h then some { d with ready := u :: d.ready.filter (fun v => decide (v ≠ u)) }
              else k.handles h1 })
      | r => (r, (Core.ask E uniqueId c k).2.log [BackendCall.initUnit h u]))
  | Call.decrypt h u _ _ _ =>
    k.onHandle uniqueId h (fun d =>
      if u ∈ d.ready then
        ((Core.ask E uniqueId c k).1, (Core.ask E uniqueId c k).2.log [BackendCall.decryptUnit h u])
      else (Reply.status Status.protocolViolation, k))
  | Call.finalizeDecryptUnit h u =>
    k.onHandle uniqueId h (fun d =>
      if u ∈ d.ready then
        (Reply.status Status.ok,
          { k.log [BackendCall.finalizeUnit h u] with
            handles := fun h1 =>
              if h1 = h then some { d with ready := d.ready.filter (fun v => decide (v ≠ u)) }
              else k.handles h1 })
      else (Reply.status Status.protocolViolation, k))
  | Call.closeDecryptSession h =>
    k.onHandle uniqueId h (fun d =>
      (Reply.status Status.ok,
        { k.log (closeLog h d) with
          handles := fun h1 => if h1 = h then none else k.handles h1 }))
  | Call.consumeRights h _ _ => k.onHandle uniqueId h (fun _ => Core.ask E uniqueId c k)
  | Call.setPlaybackStatus h _ _ => k.onHandle uniqueId h (fun _ => Core.ask E uniqueId c k)
  | Call.pread h _ _ _ => k.onHandle uniqueId h (fun _ => Core.ask E uniqueId c k)
  | _ => Core.ask E uniqueId c k

/-- Modelled from the spec: the core seen through the interface of `DrmManagerClientImpl`,
which is not among the sources at hand. -/
def Core.impl {τ : Type} (E : Surroundings τ) : DrmManagerClientImpl (Core τ) Reply :=
  { create := Core.create E
    remove := Core.remove
    addClient := Core.addClient
    removeClient := Core.removeClient E
    perform := Core.perform E }

/-- Whether unit `u` is in UNIT_READY in the entry of a handle. -/
def readyIn (entry : Option DecryptSession) (u : Int) : Bool :=
  match entry with
  | some d => decide (u ∈ d.ready)
  | none => false

/-- Whether unit `u` of handle `h` is in UNIT_READY. -/
def Core.unitReady {τ : Type} (k : Core τ) (h : Ptr) (u : Int) : Bool :=
  readyIn (k.handles h) u

/-- Whether handle `h` is open. -/
def Core.isOpen {τ : Type} (k : Core τ) (h : Ptr) : Bool :=
  (k.handles h).isSome

/-- Surroundings for the examples: the allocator hands out one more than the sum of the
absolute values in use, every content is handled, and the backend accepts everything. -/
def Surroundings.sample : Surroundings Unit :=
  { pick := fun used => (used.map Int.natAbs).sum + 1
    pick_fresh := by
      intro used hmem
      have hle : ∀ (l : List Int) (x : Int), x ∈ l → x ≤ ((l.map Int.natAbs).sum : Nat) := by
        intro l
        induction l with
        | nil => intro x hx; simp at hx
        | cons a l ih =>
          intro x hx
          simp only [List.mem_cons] at hx
          simp only [List.map_cons, List.sum_cons, Nat.cast_add]
          rcases hx with rfl | hx
          · have := Int.le_natAbs (a := x)
            have h2 : (0 : Int) ≤ ((l.map Int.natAbs).sum : Nat) := Int.natCast_nonneg _
            omega
          · have := ih x hx
            have h2 : (0 : Int) ≤ (a.natAbs : Int) := Int.natCast_nonneg _
            omega
      have hbound := hle used _ hmem
      dsimp only at hbound
      omega
    canHandle := fun _ _ => true
    answer := fun _ _ _ => (Reply.status Status.ok, ())
    detach := fun _ _ => () }

/-- Every open handle has been issued: its number is below the next one to issue. -/
def Core.HandlesBelow {τ : Type} (k : Core τ) : Prop :=
  ∀ (h : Ptr) (d : DecryptSession), k.handles h = some d → h < k.nextHandle

/-- The invariant that ties the client objects to the registry of the core: every object that
exists is registered under its unique id, no two objects that exist have the same unique id,
every registered id belongs to an object that exists, the registry lists no id twice, and
every open handle has been issued. -/
structure SysInv {τ : Type} (sys : System (Core τ)) : Prop where
  registered : ∀ (i : Nat) (cl : DrmManagerClient),
    sys.objects[i]? = some (some cl) → sys.impl.known cl.mUniqueId = true
  distinct : ∀ (i j : Nat) (cl1 cl2 : DrmManagerClient),
    sys.objects[i]? = some (some cl1) → sys.objects[j]? = some (some cl2) →
    cl1.mUniqueId = cl2.mUniqueId → i = j
  owned : ∀ uid : Int, sys.impl.known uid = true →
    ∃ (i : Nat) (cl : DrmManagerClient), sys.objects[i]? = some (some cl) ∧ cl.mUniqueId = uid
  nodup : (sys.impl.sessions.map ClientSession.uniqueId).Nodup
  below : sys.impl.HandlesBelow

/-! ## Part 3. Threads calling into clients -/

/-- An implementation that answers nothing and keeps no state. It serves to read off the events
of a member function, which do not depend on what the implementation answers. -/
def DrmManagerClientImpl.silent : DrmManagerClientImpl Unit Unit :=
  { create := fun u _ => (0, u, ())
    remove := fun _ _ => ()
    addClient := fun _ _ => ()
    removeClient := fun _ _ => ()
    perform := fun _ _ _ => ((), ()) }

/-- The events of one call `c` on the client object `self`, in order. -/
def footprint (self : DrmManagerClient) (c : Call) : List Event :=
  (DrmManagerClient.call DrmManagerClientImpl.silent c
    { self := self, impl := (), trace := [] }).2.trace

/-- The events a thread goes through when it makes the calls of `prog` one after the other,
each event labelled with the object and the call it belongs to. -/
def scriptOf : List (DrmManagerClient × Call) → List (DrmManagerClient × Call × Event)
  | [] => []
  | p :: ps => (footprint p.1 p.2).map (fun e => (p.1, p.2, e)) ++ scriptOf ps

/-- A thread: the events it still has to go through, the mutexes it holds, and the
implementation operation it is inside of, if any. -/
structure Thread where
  script : List (DrmManagerClient × Call × Event)
  holds : List Mutex
  inside : Option (DrmManagerClient × Call)
deriving DecidableEq

/-- A thread about to make the calls of `prog`. -/
def Thread.start (prog : List (DrmManagerClient × Call)) : Thread :=
  { script := scriptOf prog, holds := [], inside := none }

/-- Modelled from the spec: the class `Mutex` (`utils/threads.h`) is not among the sources at
hand; following section 5 it is one mutual-exclusion domain, so locking a mutex that some thread
holds does not proceed. Thread `t` takes its next step; `none` when it has none or is blocked. -/
def Conc.step (ts : List Thread) (t : Nat) : Option (List Thread) :=
  match ts[t]? with
  | none => none
  | some th =>
    match th.script with
    | [] => none
    | (_, _, Event.acquire m) :: rest =>
      if ts.any (fun other => decide (m ∈ other.holds)) then none
      else some (ts.set t { script := rest, holds := m :: th.holds, inside := th.inside })
    | (_, _, Event.release m) :: rest =>
      some (ts.set t { script := rest, holds := th.holds.erase m, inside := th.inside })
    | (cl, c, Event.invoke _ _) :: rest =>
      some (ts.set t { script := rest, holds := th.holds, inside := some (cl, c) })
    | (_, _, Event.returned _ _) :: rest =>
      some (ts.set t { script := rest, holds := th.holds, inside := none })
    | (_, _, _) :: rest =>
      some (ts.set t { script := rest, holds := th.holds, inside := th.inside })

/-- Let the threads step in the order given by the schedule. -/
def Conc.run : List Nat → List Thread → Option (List Thread)
  | [], ts => some ts
  | t :: sched, ts =>
    match Conc.step ts t with
    | none => none
    | some ts1 => Conc.run sched ts1

/-- The positions a thread can be at: between two calls, where it holds no mutex, or somewhere
inside the events of one call, with the mutex of the object in hand exactly where the call is
decrypt-sensitive. -/
inductive Thread.Shape : Thread → Prop where
  | idle (prog : List (DrmManagerClient × Call)) :
      Thread.Shape { script := scriptOf prog, holds := [], inside := none }
  | locked (cl : DrmManagerClient) (c : Call) (prog : List (DrmManagerClient × Call))
      (hs : c.decryptSensitive = true) :
      Thread.Shape
        { script := (cl, c, Event.invoke cl.mUniqueId c) :: (cl, c, Event.returned cl.mUniqueId c)
            :: (cl, c, Event.release cl.mDecryptLock) :: scriptOf prog
          holds := [cl.mDecryptLock], inside := none }
  | inCallLocked (cl : DrmManagerClient) (c : Call) (prog : List (DrmManagerClient × Call))
      (hs : c.decryptSensitive = true) :
      Thread.Shape
        { script := (cl, c, Event.returned cl.mUniqueId c)
            :: (cl, c, Event.release cl.mDecryptLock) :: scriptOf prog
          holds := [cl.mDecryptLock], inside := some (cl, c) }
  | leaving (cl : DrmManagerClient) (c : Call) (prog : List (DrmManagerClient × Call)) :
      Thread.Shape
        { script := (cl, c, Event.release cl.mDecryptLock) :: scriptOf prog
          holds := [cl.mDecryptLock], inside := none }
  | inCallFree (cl : DrmManagerClient) (c : Call) (prog : List (DrmManagerClient × Call))
      (hs : c.decryptSensitive = false) :
      Thread.Shape
        { script := (cl, c, Event.returned cl.mUniqueId c) :: scriptOf prog
          holds := [], inside := some (cl, c) }

/-- The invariant of a system of threads: every thread is at one of the positions above, and
no mutex is held by two threads. -/
def Conc.Inv (ts : List Thread) : Prop :=
  (∀ (t : Nat) (th : Thread), ts[t]? = some th → Thread.Shape th) ∧
  (∀ (t1 t2 : Nat) (th1 th2 : Thread) (m : Mutex), ts[t1]? = some th1 → ts[t2]? = some th2 →
    m ∈ th1.holds → m ∈ th2.holds → t1 = t2)

/-! ## Concrete inputs used by the examples -/

/-- A client object for the examples: unique id 7, mutex 0. -/
def DrmManagerClient.sample : DrmManagerClient :=
  { mUniqueId := 7, mDrmManagerClientImpl := some 1, mDecryptLock := 0 }

/-- The frame of a member function of the sample client over the silent implementation. -/
def Frame.sample : Frame Unit :=
  { self := DrmManagerClient.sample, impl := (), trace := [] }

/-- Steps for the examples: a client is constructed and opens a decrypt session on a file. -/
def sampleOpen : List Op :=
  [Op.construct, Op.call 0 (Call.openDecryptSession 3 0 1000)]

/-- The system after `sampleOpen`, over the core with the sample surroundings. -/
def sampleOpened : System (Core Unit) :=
  (System.run (Core.impl Surroundings.sample) sampleOpen (System.init (Core.init ()))).getD
    (System.init (Core.init ()))

/-- Steps for the examples: as `sampleOpen`, then unit 0 of the handle is initialized. -/
def sampleInit : List Op :=
  sampleOpen ++ [Op.call 0 (Call.initializeDecryptUnit 1 0 0)]

/-- The system after `sampleInit`, over the core with the sample surroundings. -/
def sampleInitialized : System (Core Unit) :=
  (System.run (Core.impl Surroundings.sample) sampleInit (System.init (Core.init ()))).getD
    (System.init (Core.init ()))

/-- Steps for the examples: three constructions with a destruction in between. -/
def sampleLifecycle : List Op :=
  [Op.construct, Op.construct, Op.destruct 0, Op.construct]
/-! ## Part 1, theorems. `Rect` -/


/-- The return value of `intersect` is the value of its guard. -/
theorem Rect.intersect_fst {α : Type} [LinearOrder α] (R : Rect α) (l t r b : Flt α) :
    (R.intersect l t r b).1 =
      (l.lt r && t.lt b && !R.isEmpty && R.left.lt r && l.lt R.right &&
        R.top.lt b && t.lt R.bottom) := by
  unfold Rect.intersect
  split
  · rename_i hc
    simp only [hc]
  · rename_i hc
    simp only [Bool.not_eq_true] at hc
    simp only [hc]

/-- A false return of `intersect` leaves the rectangle as it was. -/
theorem Rect.intersect_snd_of_false {α : Type} [LinearOrder α] (R : Rect α) (l t r b : Flt α)
    (h : (R.intersect l t r b).1 = false) : (R.intersect l t r b).2 = R := by
  unfold Rect.intersect at h ⊢
  split
  · rename_i hc
    rw [if_pos hc] at h
    simp at h
  · rfl

/-- On numbers, `<` is the negation of `>=`. -/
theorem Flt.not_ge_num {α : Type} [LinearOrder α] (x y : α) :
    (!decide (x ≥ y)) = decide (x < y) := by
  rw [Bool.eq_iff_iff]
  simp

/-- The two spellings of the non-emptiness guard agree whenever the four cross comparisons
hold, NaN included: a NaN field of the rectangle already falsifies a cross comparison. -/
theorem Rect.guard_agree {α : Type} [LinearOrder α] (L T Rr B l t r b : Flt α) :
    (!(L.ge Rr || T.ge B) && L.lt r && l.lt Rr && T.lt b && t.lt B) =
      (L.lt Rr && T.lt B && L.lt r && l.lt Rr && T.lt b && t.lt B) := by
  cases L <;> cases T <;> cases Rr <;> cases B <;>
    simp [Flt.lt, Flt.ge, Flt.not_ge_num]

/-- C8: `intersect` returns true exactly when `intersects` is true on the value of the
rectangle before the call, for all float coordinates (NaN included), and a false return
leaves the four fields unchanged. -/
theorem C8_intersect_agrees_with_intersects {α : Type} [LinearOrder α]
    (R : Rect α) (l t r b : Flt α) :
    (R.intersect l t r b).1 = R.intersects l t r b ∧
      ((R.intersect l t r b).1 = false → (R.intersect l t r b).2 = R) := by
  refine ⟨?_, Rect.intersect_snd_of_false R l t r b⟩
  rw [Rect.intersect_fst]
  have h := Rect.guard_agree R.left R.top R.right R.bottom l t r b
  unfold Rect.intersects Rect.isEmpty
  simp only [Bool.and_assoc] at h ⊢
  rw [h]

/-- C9: over a totally ordered domain (no NaN), a true return of `intersect` leaves in the
rectangle exactly (max of lefts, max of tops, min of rights, min of bottoms), which is
non-empty and contained in both the old rectangle and the argument rectangle; a second call
with the same arguments returns true and changes nothing. -/
theorem C9_intersect_true_result {α : Type} [LinearOrder α] (L T Rr B l t r b : α)
    (h : ((Rect.ofNums L T Rr B).intersect
        (Flt.num l) (Flt.num t) (Flt.num r) (Flt.num b)).1 = true) :
    ((Rect.ofNums L T Rr B).intersect (Flt.num l) (Flt.num t) (Flt.num r) (Flt.num b)).2 =
        Rect.ofNums (max L l) (max T t) (min Rr r) (min B b) ∧
      (Rect.ofNums (max L l) (max T t) (min Rr r) (min B b)).isEmpty = false ∧
      (Rect.ofNums (max L l) (max T t) (min Rr r) (min B b)).containedIn
        (Rect.ofNums L T Rr B) = true ∧
      (Rect.ofNums (max L l) (max T t) (min Rr r) (min B b)).containedIn
        (Rect.ofNums l t r b) = true ∧
      (Rect.ofNums (max L l) (max T t) (min Rr r) (min B b)).intersect
        (Flt.num l) (Flt.num t) (Flt.num r) (Flt.num b) =
        (true, Rect.ofNums (max L l) (max T t) (min Rr r) (min B b)) := by
  rw [Rect.intersect_fst] at h
  simp only [Rect.ofNums, Rect.isEmpty, Flt.lt, Flt.ge, Bool.and_eq_true, Bool.not_eq_true',
    Bool.or_eq_false_iff, decide_eq_true_eq, decide_eq_false_iff_not, not_le, ge_iff_le] at h
  obtain ⟨⟨⟨⟨⟨⟨h1, h2⟩, h3, h4⟩, h5⟩, h6⟩, h7⟩, h8⟩ := h
  rcases lt_or_le L l with a1 | a1 <;> rcases lt_or_le T t with a2 | a2 <;>
    rcases lt_or_le r Rr with a3 | a3 <;> rcases lt_or_le b B with a4 | a4 <;>
    simp [Rect.intersect, Rect.ofNums, Rect.isEmpty, Rect.containedIn, Flt.lt, Flt.gt, Flt.ge,
      Flt.le, max_eq_left, max_eq_right, min_eq_left, min_eq_right, le_of_lt, not_lt_of_le,
      not_le_of_lt, *]

/-- Witness of C9 on the integers: intersecting (0,0,10,10) with (5,5,20,20). -/
theorem C9_intersect_true_result_witness :
    ((Rect.ofNums (0 : ℤ) 0 10 10).intersect
        (Flt.num 5) (Flt.num 5) (Flt.num 20) (Flt.num 20)).1 = true ∧
      ((Rect.ofNums (0 : ℤ) 0 10 10).intersect
        (Flt.num 5) (Flt.num 5) (Flt.num 20) (Flt.num 20)).2 = Rect.ofNums 5 5 10 10 :=
  ⟨by decide, (C9_intersect_true_result (0 : ℤ) 0 10 10 5 5 20 20 (by decide)).1.trans
    (by decide)⟩

/-- On numbers, emptiness is the failure of one of the two strict comparisons. -/
theorem Rect.isEmpty_ofNums {α : Type} [LinearOrder α] (l t r b : α) :
    (Rect.ofNums l t r b).isEmpty = !(decide (l < r) && decide (t < b)) := by
  rw [Bool.eq_iff_iff]
  simp [Rect.ofNums, Rect.isEmpty, Flt.ge, imp_iff_not_or]

/-- The fields `unionWith` leaves when both rectangles are non-empty: the bounding box. -/
theorem Rect.unionWith_both {α : Type} [LinearOrder α] (L T Rr B l t r b : α)
    (e1 : l < r) (e2 : t < b) (e3 : L < Rr) (e4 : T < B) :
    (Rect.ofNums L T Rr B).unionWith (Rect.ofNums l t r b) =
      (true, Rect.ofNums (min L l) (min T t) (max Rr r) (max B b)) := by
  rcases lt_or_le l L with a1 | a1 <;> rcases lt_or_le t T with a2 | a2 <;>
    rcases lt_or_le Rr r with a3 | a3 <;> rcases lt_or_le B b with a4 | a4 <;>
    simp [Rect.unionWith, Rect.ofNums, Flt.lt, Flt.gt, max_eq_left, max_eq_right, min_eq_left,
      min_eq_right, le_of_lt, not_lt_of_le, *]

/-- The fields `unionWith` leaves when only the argument is non-empty: the argument. -/
theorem Rect.unionWith_into_empty {α : Type} [LinearOrder α] (L T Rr B l t r b : α)
    (e1 : l < r) (e2 : t < b) (e3 : ¬ (L < Rr ∧ T < B)) :
    (Rect.ofNums L T Rr B).unionWith (Rect.ofNums l t r b) = (true, Rect.ofNums l t r b) := by
  simp only [Rect.unionWith, Rect.ofNums, Flt.lt, e1, e2, decide_True, Bool.and_self, if_true]
  rw [if_neg]
  simpa using e3

/-- The result of `unionWith` with an empty argument: false, nothing changed. -/
theorem Rect.unionWith_empty_arg {α : Type} [LinearOrder α] (L T Rr B l t r b : α)
    (e : ¬ (l < r ∧ t < b)) :
    (Rect.ofNums L T Rr B).unionWith (Rect.ofNums l t r b) = (false, Rect.ofNums L T Rr B) := by
  simp only [Rect.unionWith, Rect.ofNums, Flt.lt]
  rw [if_neg]
  simpa using e

/-- C10: over a totally ordered domain (no NaN), `unionWith` returns false exactly when the
argument is empty, and then leaves the rectangle unchanged; otherwise it returns true and the
new rectangle is non-empty and contains the argument: it is the argument when the old
rectangle was empty, and the bounding box of both when the old rectangle was non-empty. -/
theorem C10_unionWith_result {α : Type} [LinearOrder α] (L T Rr B l t r b : α) :
    (((Rect.ofNums L T Rr B).unionWith (Rect.ofNums l t r b)).1 = false ↔
        (Rect.ofNums l t r b).isEmpty = true) ∧
      (Rect.ofNums L T Rr B).unionWith (Rect.ofNums l t r b) =
        (if (Rect.ofNums l t r b).isEmpty then (false, Rect.ofNums L T Rr B)
         else if (Rect.ofNums L T Rr B).isEmpty then (true, Rect.ofNums l t r b)
         else (true, Rect.ofNums (min L l) (min T t) (max Rr r) (max B b))) ∧
      ((Rect.ofNums l t r b).isEmpty = false →
        ((Rect.ofNums L T Rr B).unionWith (Rect.ofNums l t r b)).2.isEmpty = false ∧
        (Rect.ofNums l t r b).containedIn
          ((Rect.ofNums L T Rr B).unionWith (Rect.ofNums l t r b)).2 = true) := by
  simp only [Rect.isEmpty_ofNums]
  by_cases e : l < r ∧ t < b
  · obtain ⟨e1, e2⟩ := e
    by_cases e3 : L < Rr ∧ T < B
    · rw [Rect.unionWith_both L T Rr B l t r b e1 e2 e3.1 e3.2]
      have m1 : min L l < max Rr r := lt_max_of_lt_left (min_lt_of_left_lt e3.1)
      have m2 : min T t < max B b := lt_max_of_lt_left (min_lt_of_left_lt e3.2)
      have c : (Rect.ofNums l t r b).containedIn
          (Rect.ofNums (min L l) (min T t) (max Rr r) (max B b)) = true := by
        simp [Rect.containedIn, Rect.ofNums, Flt.le]
      simp only [Rect.isEmpty_ofNums, e1, e2, e3.1, e3.2, m1, m2, c]
      simp
    · rw [Rect.unionWith_into_empty L T Rr B l t r b e1 e2 e3]
      have c : (Rect.ofNums l t r b).containedIn (Rect.ofNums l t r b) = true := by
        simp [Rect.containedIn, Rect.ofNums, Flt.le]
      have e3b : (decide (L < Rr) && decide (T < B)) = false := by
        rw [Bool.eq_false_iff]
        simpa using e3
      simp only [Rect.isEmpty_ofNums, e1, e2, e3b, c]
      simp
  · rw [Rect.unionWith_empty_arg L T Rr B l t r b e]
    have eb : (decide (l < r) && decide (t < b)) = false := by
      rw [Bool.eq_false_iff]
      simpa using e
    simp only [eb]
    simp

/-! ## Part 2, theorems. The forwarding member functions -/

/-- What `forward` returns and leaves behind. -/
theorem forward_eq {σ ρ : Type} (I : DrmManagerClientImpl σ ρ) (c : Call) (s : Frame σ) :
    forward I c s =
      ((I.perform s.self.mUniqueId c s.impl).1,
        { self := s.self
          impl := (I.perform s.self.mUniqueId c s.impl).2
          trace := s.trace ++
            [Event.invoke s.self.mUniqueId c, Event.returned s.self.mUniqueId c] }) := by
  simp [forward, Frame.emit]

/-- What a locked `forward` returns and leaves behind. -/
theorem autolock_forward_eq {σ ρ : Type} (I : DrmManagerClientImpl σ ρ) (c : Call)
    (s : Frame σ) :
    autolock (forward I c) s =
      ((I.perform s.self.mUniqueId c s.impl).1,
        { self := s.self
          impl := (I.perform s.self.mUniqueId c s.impl).2
          trace := s.trace ++
            [Event.acquire s.self.mDecryptLock, Event.invoke s.self.mUniqueId c,
              Event.returned s.self.mUniqueId c, Event.release s.self.mDecryptLock] }) := by
  simp [autolock, forward, Frame.emit]

/-- Every member function is `forward` of the call of its own name, under the lock exactly for
the decrypt-sensitive ones. -/
theorem DrmManagerClient.call_eq {σ ρ : Type} (I : DrmManagerClientImpl σ ρ) (c : Call)
    (s : Frame σ) :
    DrmManagerClient.call I c s =
      if c.decryptSensitive then autolock (forward I c) s else forward I c s := by
  cases c <;> rfl

/-- The events of a call are its footprint, whatever the implementation. -/
theorem DrmManagerClient.call_trace {σ ρ : Type} (I : DrmManagerClientImpl σ ρ) (c : Call)
    (s : Frame σ) :
    (DrmManagerClient.call I c s).2.trace = s.trace ++ footprint s.self c := by
  unfold footprint
  rw [DrmManagerClient.call_eq, DrmManagerClient.call_eq]
  cases h : c.decryptSensitive <;> simp [autolock_forward_eq, forward_eq]

/-- The footprint of a call, spelled out. -/
theorem footprint_eq (self : DrmManagerClient) (c : Call) :
    footprint self c =
      if c.decryptSensitive then
        [Event.acquire self.mDecryptLock, Event.invoke self.mUniqueId c,
          Event.returned self.mUniqueId c, Event.release self.mDecryptLock]
      else [Event.invoke self.mUniqueId c, Event.returned self.mUniqueId c] := by
  unfold footprint
  rw [DrmManagerClient.call_eq]
  cases h : c.decryptSensitive <;> simp [autolock_forward_eq, forward_eq]

/-- The invocations of a trace that was extended. -/
theorem invocations_append (xs ys : List Event) :
    invocations (xs ++ ys) = invocations xs ++ invocations ys := by
  induction xs with
  | nil => rfl
  | cons e es ih => cases e <;> simp [invocations, ih]

/-- One call: value, implementation state, object and invocations. -/
theorem DrmManagerClient.call_spec {σ ρ : Type} (I : DrmManagerClientImpl σ ρ) (c : Call)
    (s : Frame σ) :
    (DrmManagerClient.call I c s).1 = (I.perform s.self.mUniqueId c s.impl).1 ∧
      (DrmManagerClient.call I c s).2.impl = (I.perform s.self.mUniqueId c s.impl).2 ∧
      (DrmManagerClient.call I c s).2.self = s.self ∧
      invocations (DrmManagerClient.call I c s).2.trace =
        invocations s.trace ++ [(s.self.mUniqueId, c)] := by
  rw [DrmManagerClient.call_eq]
  cases h : c.decryptSensitive <;>
    simp [autolock_forward_eq, forward_eq, invocations_append, invocations]

/-- C6: every member function forwards verbatim. From any state of a client object, a
sequence of calls returns exactly the values the implementation returns when it is handed the
same-named operations with the unique id of the object and the arguments of the caller, leaves
the implementation in the same state, enters the implementation once per call with that id and
those arguments in that order, and leaves the object (its unique id included) as it was; the
id in question is the one `create` wrote at construction. -/
theorem C6_calls_forward_verbatim {σ ρ : Type} (I : DrmManagerClientImpl σ ρ)
    (calls : List Call) (s : Frame σ) :
    (DrmManagerClient.callAll I calls s).1 = (I.performAll s.self.mUniqueId calls s.impl).1 ∧
      (DrmManagerClient.callAll I calls s).2.impl =
        (I.performAll s.self.mUniqueId calls s.impl).2 ∧
      (DrmManagerClient.callAll I calls s).2.self = s.self ∧
      invocations (DrmManagerClient.callAll I calls s).2.trace =
        invocations s.trace ++ calls.map (fun c => (s.self.mUniqueId, c)) ∧
      (∀ (lock : Mutex) (impl : σ) (trace : List Event),
        (DrmManagerClient.ctor I lock impl trace).self.mUniqueId = (I.create 0 impl).2.1) := by
  refine ⟨?_, ?_, ?_, ?_, fun _ _ _ => rfl⟩
  all_goals
    induction calls generalizing s with
    | nil => simp [DrmManagerClient.callAll, DrmManagerClientImpl.performAll]
    | cons c cs ih =>
      obtain ⟨h1, h2, h3, h4⟩ := DrmManagerClient.call_spec I c s
      simp only [DrmManagerClient.callAll, DrmManagerClientImpl.performAll, ih, h1, h2, h3, h4]
      try simp

/-! ## Part 3, theorems. Mutual exclusion -/

/-- The script of a program that starts with a call, spelled out. -/
theorem scriptOf_cons (cl : DrmManagerClient) (c : Call)
    (prog : List (DrmManagerClient × Call)) :
    scriptOf ((cl, c) :: prog) =
      if c.decryptSensitive then
        (cl, c, Event.acquire cl.mDecryptLock) :: (cl, c, Event.invoke cl.mUniqueId c)
          :: (cl, c, Event.returned cl.mUniqueId c) :: (cl, c, Event.release cl.mDecryptLock)
          :: scriptOf prog
      else
        (cl, c, Event.invoke cl.mUniqueId c) :: (cl, c, Event.returned cl.mUniqueId c)
          :: scriptOf prog := by
  simp only [scriptOf, footprint_eq]
  cases c.decryptSensitive <;> simp

/-- A thread inside a decrypt-sensitive operation holds the mutex of the object. -/
theorem Thread.Shape.holds_lock {th : Thread} (h : Thread.Shape th) (cl : DrmManagerClient)
    (c : Call) (hin : th.inside = some (cl, c)) (hs : c.decryptSensitive = true) :
    cl.mDecryptLock ∈ th.holds := by
  cases h with
  | idle prog => simp at hin
  | locked cl1 c1 prog hs1 => simp at hin
  | inCallLocked cl1 c1 prog hs1 =>
    simp only [Option.some.injEq, Prod.mk.injEq] at hin
    obtain ⟨rfl, rfl⟩ := hin
    simp
  | leaving cl1 c1 prog => simp at hin
  | inCallFree cl1 c1 prog hs1 =>
    simp only [Option.some.injEq, Prod.mk.injEq] at hin
    obtain ⟨rfl, rfl⟩ := hin
    rw [hs] at hs1
    exact absurd hs1 (by decide)

/-- A thread that has gone through all its events holds no mutex and is inside nothing. -/
theorem Thread.Shape.done {th : Thread} (h : Thread.Shape th) (hdone : th.script = []) :
    th.holds = [] ∧ th.inside = none := by
  cases h with
  | idle prog => exact ⟨rfl, rfl⟩
  | locked cl1 c1 prog hs1 => simp at hdone
  | inCallLocked cl1 c1 prog hs1 => simp at hdone
  | leaving cl1 c1 prog => simp at hdone
  | inCallFree cl1 c1 prog hs1 => simp at hdone

/-- Replacing one thread keeps the invariant when the new thread is at a position and every
mutex it holds was held by the old one or by no thread at all. -/
theorem Conc.Inv.set {ts : List Thread} (hinv : Conc.Inv ts) (t : Nat) (th th1 : Thread)
    (hth : ts[t]? = some th) (hshape : Thread.Shape th1)
    (hholds : ∀ m, m ∈ th1.holds →
      m ∈ th.holds ∨ ∀ (t2 : Nat) (th2 : Thread), ts[t2]? = some th2 → m ∉ th2.holds) :
    Conc.Inv (ts.set t th1) := by
  obtain ⟨hs, hd⟩ := hinv
  have hlt : t < ts.length := by
    by_contra hge
    rw [List.getElem?_eq_none (by omega)] at hth
    exact absurd hth (by simp)
  constructor
  · intro t1 x hx
    rw [List.getElem?_set] at hx
    by_cases e : t = t1
    · simp only [e, if_true] at hx
      subst e
      simp only [hlt, if_true, Option.some.injEq] at hx
      subst hx
      exact hshape
    · simp only [e, if_false] at hx
      exact hs t1 x hx
  · intro t1 t2 x1 x2 m h1 h2 m1 m2
    rw [List.getElem?_set] at h1 h2
    by_cases e1 : t = t1 <;> by_cases e2 : t = t2
    · omega
    · subst e1
      simp only [if_true, hlt, Option.some.injEq] at h1
      simp only [e2, if_false] at h2
      subst h1
      rcases hholds m m1 with hold | hfree
      · exact hd t t2 th x2 m hth h2 hold m2
      · exact absurd m2 (hfree t2 x2 h2)
    · subst e2
      simp only [if_true, hlt, Option.some.injEq] at h2
      simp only [e1, if_false] at h1
      subst h2
      rcases hholds m m2 with hold | hfree
      · exact hd t1 t x1 th m h1 hth m1 hold
      · exact absurd m1 (hfree t1 x1 h1)
    · simp only [e1, if_false] at h1
      simp only [e2, if_false] at h2
      exact hd t1 t2 x1 x2 m h1 h2 m1 m2

/-- A step of any thread keeps the invariant. -/
theorem Conc.Inv.thread_step {ts ts1 : List Thread} (hinv : Conc.Inv ts) (t : Nat)
    (hstep : Conc.step ts t = some ts1) : Conc.Inv ts1 := by
  unfold Conc.step at hstep
  cases hth : ts[t]? with
  | none => simp [hth] at hstep
  | some th =>
    simp only [hth] at hstep
    have hshape := hinv.1 t th hth
    cases hshape with
    | idle prog =>
      cases prog with
      | nil => simp [scriptOf] at hstep
      | cons p prog1 =>
        obtain ⟨cl, c⟩ := p
        rw [scriptOf_cons] at hstep
        cases hsens : c.decryptSensitive with
        | true =>
          simp only [hsens, if_true] at hstep
          split at hstep
          · simp at hstep
          · rename_i hfree
            simp only [Option.some.injEq] at hstep
            subst hstep
            refine hinv.set t _ _ hth (Thread.Shape.locked cl c prog1 hsens) ?_
            intro m hm
            simp only [List.mem_singleton] at hm
            subst hm
            right
            intro t2 th2 h2
            simp only [Bool.not_eq_true, List.any_eq_false, decide_eq_true_eq] at hfree
            exact hfree th2 (List.getElem?_mem h2)
        | false =>
          simp only [hsens, if_false, Bool.false_eq_true] at hstep
          simp only [Option.some.injEq] at hstep
          subst hstep
          refine hinv.set t _ _ hth (Thread.Shape.inCallFree cl c prog1 hsens) ?_
          intro m hm
          left
          exact hm
    | locked cl c prog hs =>
      simp only [Option.some.injEq] at hstep
      subst hstep
      refine hinv.set t _ _ hth (Thread.Shape.inCallLocked cl c prog hs) ?_
      intro m h
      left
      exact h
    | inCallLocked cl c prog hs =>
      simp only [Option.some.injEq] at hstep
      subst hstep
      refine hinv.set t _ _ hth (Thread.Shape.leaving cl c prog) ?_
      intro m h
      left
      exact h
    | leaving cl c prog =>
      simp only [Option.some.injEq] at hstep
      subst hstep
      have herase : [cl.mDecryptLock].erase cl.mDecryptLock = [] := by simp
      rw [herase]
      refine hinv.set t _ _ hth (Thread.Shape.idle prog) ?_
      intro m h
      simp at h
    | inCallFree cl c prog hs =>
      simp only [Option.some.injEq] at hstep
      subst hstep
      refine hinv.set t _ _ hth (Thread.Shape.idle prog) ?_
      intro m h
      left
      exact h

/-- Any schedule keeps the invariant. -/
theorem Conc.Inv.schedule {ts ts1 : List Thread} (hinv : Conc.Inv ts) (sched : List Nat)
    (hrun : Conc.run sched ts = some ts1) : Conc.Inv ts1 := by
  induction sched generalizing ts with
  | nil =>
    simp only [Conc.run, Option.some.injEq] at hrun
    subst hrun
    exact hinv
  | cons t sched ih =>
    simp only [Conc.run] at hrun
    cases hstep : Conc.step ts t with
    | none => simp [hstep] at hrun
    | some ts2 =>
      simp only [hstep] at hrun
      exact ih (hinv.thread_step t hstep) hrun

/-- Threads that have not started satisfy the invariant. -/
theorem Conc.Inv.start (progs : List (List (DrmManagerClient × Call))) :
    Conc.Inv (progs.map Thread.start) := by
  constructor
  · intro t th h
    have hmem := List.getElem?_mem h
    simp only [List.mem_map] at hmem
    obtain ⟨prog, _, rfl⟩ := hmem
    exact Thread.Shape.idle prog
  · intro t1 t2 th1 th2 m h1 h2 m1 m2
    have hmem := List.getElem?_mem h1
    simp only [List.mem_map] at hmem
    obtain ⟨prog, _, rfl⟩ := hmem
    simp [Thread.start] at m1

/-- Mutual exclusion: in whatever order the threads are scheduled, two different threads are
never both inside decrypt-sensitive operations of clients that share a mutex. -/
theorem Conc.mutual_exclusion (progs : List (List (DrmManagerClient × Call)))
    (sched : List Nat) (ts : List Thread)
    (hrun : Conc.run sched (progs.map Thread.start) = some ts)
    (t1 t2 : Nat) (th1 th2 : Thread) (cl1 cl2 : DrmManagerClient) (c1 c2 : Call)
    (h1 : ts[t1]? = some th1) (h2 : ts[t2]? = some th2)
    (i1 : th1.inside = some (cl1, c1)) (i2 : th2.inside = some (cl2, c2))
    (s1 : c1.decryptSensitive = true) (s2 : c2.decryptSensitive = true)
    (hm : cl1.mDecryptLock = cl2.mDecryptLock) : t1 = t2 := by
  have hinv := (Conc.Inv.start progs).schedule sched hrun
  have m1 := (hinv.1 t1 th1 h1).holds_lock cl1 c1 i1 s1
  have m2 := (hinv.1 t2 th2 h2).holds_lock cl2 c2 i2 s2
  rw [hm] at m1
  exact hinv.2 t1 t2 th1 th2 _ h1 h2 m1 m2

/-! ## Part 5, theorems. The core behind the clients -/

/-- The two ways an operation on a handle can go. -/
theorem Core.onHandle_cases {τ : Type} (k : Core τ) (uid : Int) (h : Ptr)
    (body : DecryptSession → Reply × Core τ) :
    (k.onHandle uid h body = (Reply.status Status.invalidSession, k) ∧
        (k.known uid = false ∨ k.handles h = none)) ∨
      (∃ d, k.known uid = true ∧ k.handles h = some d ∧ k.onHandle uid h body = body d) := by
  unfold Core.onHandle
  cases hk : k.known uid with
  | false => simp
  | true =>
    cases hh : k.handles h with
    | none => simp
    | some d => simp

/-- No operation changes which ids the registry knows. -/
theorem Core.perform_sessions {τ : Type} (E : Surroundings τ) (uid : Int) (c : Call)
    (k : Core τ) :
    (Core.perform E uid c k).2.sessions.map ClientSession.uniqueId =
      k.sessions.map ClientSession.uniqueId := by
  cases c <;> simp only [Core.perform, Core.ask, Core.onHandle, Core.openDecrypt, Core.log] <;>
    (repeat' split) <;> simp [Function.comp_def]
  intro a _
  split <;> rfl

/-- No operation changes which ids the registry knows. -/
theorem Core.perform_known {τ : Type} (E : Surroundings τ) (uid : Int) (c : Call)
    (k : Core τ) (x : Int) : (Core.perform E uid c k).2.known x = k.known x := by
  simp only [Core.known, Core.perform_sessions]

/-- Operations keep every open handle below the next handle to issue. -/
theorem Core.perform_below {τ : Type} (E : Surroundings τ) (uid : Int) (c : Call)
    (k : Core τ) (hb : k.HandlesBelow) : (Core.perform E uid c k).2.HandlesBelow := by
  intro h d
  cases c <;> simp only [Core.perform, Core.ask, Core.onHandle, Core.openDecrypt, Core.log] <;>
    (repeat' split) <;> (try exact hb h d)
  all_goals
    dsimp only
    intro hh
    split at hh
    · first
      | (subst_vars; exact Nat.lt_succ_self _)
      | (simp at hh; done)
      | (subst_vars; apply hb; assumption)
    · first
      | exact hb h d hh
      | exact Nat.lt_succ_of_lt (hb h d hh)

/-- The next handle to issue never decreases. -/
theorem Core.perform_nextHandle {τ : Type} (E : Surroundings τ) (uid : Int) (c : Call)
    (k : Core τ) : k.nextHandle ≤ (Core.perform E uid c k).2.nextHandle := by
  cases c <;> simp only [Core.perform, Core.ask, Core.onHandle, Core.openDecrypt, Core.log] <;>
    (repeat' split) <;> first
      | exact Nat.le_refl _
      | exact Nat.le_succ _

/-- A handle that was issued and is not open stays not open: handles are not issued twice. -/
theorem Core.perform_closed {τ : Type} (E : Surroundings τ) (uid : Int) (c : Call)
    (k : Core τ) (h : Ptr) (hn : k.handles h = none) (hlt : h < k.nextHandle) :
    (Core.perform E uid c k).2.handles h = none := by
  cases c <;> simp only [Core.perform, Core.ask, Core.onHandle, Core.openDecrypt, Core.log] <;>
    (repeat' split) <;> (try exact hn)
  all_goals
    dsimp only
    split
    · first
      | rfl
      | (subst_vars; exact absurd hlt (Nat.lt_irrefl _))
      | (subst_vars; simp_all)
    · exact hn

/-- Readiness of a unit after the entry of one handle was replaced. -/
theorem Core.unitReady_update {τ : Type} (k k1 : Core τ) (h dh : Ptr) (u : Int)
    (v : Option DecryptSession)
    (hk : k1.handles = fun h1 => if h1 = dh then v else k.handles h1) :
    k1.unitReady h u = if h = dh then readyIn v u else k.unitReady h u := by
  simp only [Core.unitReady, hk]
  split <;> rfl

/-- Opening a session makes no unit ready. -/
theorem Core.openDecrypt_ready {τ : Type} (E : Surroundings τ) (uid : Int) (c : Call)
    (k : Core τ) (h : Ptr) (u : Int)
    (hr : (Core.openDecrypt E uid c k).2.unitReady h u = true) : k.unitReady h u = true := by
  unfold Core.openDecrypt at hr
  split at hr
  · split at hr
    · rw [Core.unitReady_update k _ h k.nextHandle u (some { owner := uid, ready := [] }) rfl]
        at hr
      split at hr
      · simp [readyIn] at hr
      · exact hr
    · exact hr
  · exact hr

/-- A unit is in UNIT_READY after an operation only if it was before, or the operation is
`initializeDecryptUnit` on that very unit. -/
theorem Core.perform_ready_origin {τ : Type} (E : Surroundings τ) (uid : Int) (c : Call)
    (k : Core τ) (h : Ptr) (u : Int)
    (hr : (Core.perform E uid c k).2.unitReady h u = true) :
    k.unitReady h u = true ∨ ∃ hdr, c = Call.initializeDecryptUnit h u hdr := by
  cases c
  case openDecryptSession fd off len => exact Or.inl (Core.openDecrypt_ready E uid _ k h u hr)
  case openDecryptSessionUri uri => exact Or.inl (Core.openDecrypt_ready E uid _ k h u hr)
  case closeDecryptSession dh =>
    left
    simp only [Core.perform] at hr
    rcases Core.onHandle_cases k uid dh _ with ⟨he, _⟩ | ⟨d, _, hd, he⟩
    · rw [he] at hr
      exact hr
    · rw [he, Core.unitReady_update k _ h dh u none rfl] at hr
      split at hr
      · simp [readyIn] at hr
      · exact hr
  case initializeDecryptUnit dh du hdr =>
    simp only [Core.perform] at hr
    rcases Core.onHandle_cases k uid dh _ with ⟨he, _⟩ | ⟨d, _, hd, he⟩
    · rw [he] at hr
      exact Or.inl hr
    · rw [he] at hr
      split at hr
      · rw [Core.unitReady_update k _ h dh u _ rfl] at hr
        split at hr
        · rename_i hx
          subst hx
          simp only [readyIn, List.mem_cons, List.mem_filter, decide_eq_true_eq] at hr
          rcases hr with rfl | ⟨hmem, _⟩
          · exact Or.inr ⟨hdr, rfl⟩
          · left
            simp [Core.unitReady, readyIn, hd, hmem]
        · exact Or.inl hr
      · exact Or.inl hr
  case finalizeDecryptUnit dh du =>
    left
    simp only [Core.perform] at hr
    rcases Core.onHandle_cases k uid dh _ with ⟨he, _⟩ | ⟨d, _, hd, he⟩
    · rw [he] at hr
      exact hr
    · rw [he] at hr
      split at hr
      · rw [Core.unitReady_update k _ h dh u _ rfl] at hr
        split at hr
        · rename_i hx
          subst hx
          simp only [readyIn, List.mem_filter, decide_eq_true_eq] at hr
          simp [Core.unitReady, readyIn, hd, hr.1]
        · exact hr
      · exact hr
  all_goals
    left
    revert hr
    simp only [Core.perform, Core.ask, Core.onHandle, Core.log]
    (repeat' split) <;> exact fun hr => hr

/-- After `finalizeDecryptUnit(h, u)` by a known client the unit is not in UNIT_READY. -/
theorem Core.perform_finalize_clears {τ : Type} (E : Surroundings τ) (uid : Int)
    (k : Core τ) (h : Ptr) (u : Int) (hk : k.known uid = true) :
    (Core.perform E uid (Call.finalizeDecryptUnit h u) k).2.unitReady h u = false := by
  simp only [Core.perform, Core.onHandle, hk, if_true]
  cases hh : k.handles h with
  | none => simp [Core.unitReady, readyIn, hh]
  | some d =>
    by_cases hu : u ∈ d.ready
    · simp [Core.unitReady, readyIn, hu, Core.log]
    · simp [Core.unitReady, readyIn, hu, hh]

/-- The value of `decrypt` on an open handle whose unit is not in UNIT_READY. -/
theorem Core.perform_decrypt_not_ready {τ : Type} (E : Surroundings τ) (uid : Int)
    (k : Core τ) (h : Ptr) (u : Int) (e dd iv : Ptr) (d : DecryptSession)
    (hk : k.known uid = true) (hh : k.handles h = some d) (hu : u ∉ d.ready) :
    Core.perform E uid (Call.decrypt h u e dd iv) k =
      (Reply.status Status.protocolViolation, k) := by
  simp [Core.perform, Core.onHandle, hk, hh, hu]

/-- The value of `decrypt` on a handle that is not open. -/
theorem Core.perform_decrypt_closed {τ : Type} (E : Surroundings τ) (uid : Int)
    (k : Core τ) (h : Ptr) (u : Int) (e dd iv : Ptr) (hh : k.handles h = none) :
    Core.perform E uid (Call.decrypt h u e dd iv) k =
      (Reply.status Status.invalidSession, k) := by
  simp only [Core.perform, Core.onHandle, hh]
  split <;> rfl

/-- What `closeDecryptSession` by a known client does to an open handle. -/
theorem Core.perform_close_open {τ : Type} (E : Surroundings τ) (uid : Int)
    (k : Core τ) (h : Ptr) (d : DecryptSession)
    (hk : k.known uid = true) (hh : k.handles h = some d) :
    Core.perform E uid (Call.closeDecryptSession h) k =
      (Reply.status Status.ok,
        { k.log (closeLog h d) with
          handles := fun h1 => if h1 = h then none else k.handles h1 }) := by
  simp [Core.perform, Core.onHandle, hk, hh]

/-! ## Part 4, theorems. Client objects over the core -/

/-- What a call step does, for any implementation: the object must exist, the value and the new
implementation state are those of the implementation operation, the objects stay as they are. -/
theorem System.step_call {σ ρ : Type} (I : DrmManagerClientImpl σ ρ) (sys sys1 : System σ)
    (i : Nat) (c : Call) (r : Option ρ) (hstep : System.step I sys (Op.call i c) = some (r, sys1)) :
    ∃ cl, sys.objects[i]? = some (some cl) ∧
      r = some (I.perform cl.mUniqueId c sys.impl).1 ∧
      sys1.impl = (I.perform cl.mUniqueId c sys.impl).2 ∧
      (∀ j : Nat, sys1.objects[j]? = sys.objects[j]?) := by
  simp only [System.step] at hstep
  cases hobj : sys.objects[i]? with
  | none => simp [hobj] at hstep
  | some slot =>
    cases slot with
    | none => simp [hobj] at hstep
    | some cl =>
      simp only [hobj, Option.some.injEq, Prod.mk.injEq] at hstep
      obtain ⟨hr, hs⟩ := hstep
      obtain ⟨h1, h2, h3, _⟩ :=
        DrmManagerClient.call_spec I c { self := cl, impl := sys.impl, trace := sys.trace }
      refine ⟨cl, rfl, ?_, ?_, ?_⟩
      · rw [← hr, h1]
      · rw [← hs]
        simp only [System.store, h2]
      · intro j
        rw [← hs]
        simp only [System.store, h3, List.getElem?_set]
        by_cases e : i = j
        · subst e
          have hlt : i < sys.objects.length := by
            by_contra hge
            rw [List.getElem?_eq_none (by omega)] at hobj
            exact absurd hobj (by simp)
          simp [hlt, hobj]
        · simp [e]

/-- What a call step on an existing object gives, for any implementation. -/
theorem System.step_call_value {σ ρ : Type} (I : DrmManagerClientImpl σ ρ) (sys : System σ)
    (i : Nat) (c : Call) (cl : DrmManagerClient) (hobj : sys.objects[i]? = some (some cl)) :
    ∃ sys1, System.step I sys (Op.call i c) =
        some (some (I.perform cl.mUniqueId c sys.impl).1, sys1) ∧
      sys1.impl = (I.perform cl.mUniqueId c sys.impl).2 := by
  obtain ⟨h1, h2, _, _⟩ :=
    DrmManagerClient.call_spec I c { self := cl, impl := sys.impl, trace := sys.trace }
  refine ⟨sys.store i
    (some (DrmManagerClient.call I c { self := cl, impl := sys.impl, trace := sys.trace }).2.self)
    (DrmManagerClient.call I c { self := cl, impl := sys.impl, trace := sys.trace }).2, ?_, ?_⟩
  · simp only [System.step, hobj, h1]
  · simp only [System.store, h2]

/-- What a destruction step does over the core. -/
theorem System.step_destruct {τ : Type} (E : Surroundings τ) (sys sys1 : System (Core τ))
    (i : Nat) (r : Option Reply)
    (hstep : System.step (Core.impl E) sys (Op.destruct i) = some (r, sys1)) :
    ∃ cl, sys.objects[i]? = some (some cl) ∧
      sys1.impl = Core.removeClient E cl.mUniqueId (Core.remove cl.mUniqueId sys.impl) ∧
      sys1.objects = sys.objects.set i none := by
  simp only [System.step] at hstep
  cases hobj : sys.objects[i]? with
  | none => simp [hobj] at hstep
  | some slot =>
    cases slot with
    | none => simp [hobj] at hstep
    | some cl =>
      simp only [hobj, Option.some.injEq, Prod.mk.injEq] at hstep
      obtain ⟨_, hs⟩ := hstep
      refine ⟨cl, rfl, ?_, ?_⟩
      · rw [← hs]
        rfl
      · rw [← hs]
        rfl

/-- What a construction step does over the core. -/
theorem System.step_construct {τ : Type} (E : Surroundings τ) (sys sys1 : System (Core τ))
    (r : Option Reply)
    (hstep : System.step (Core.impl E) sys Op.construct = some (r, sys1)) :
    sys1.impl = Core.addClient
        (E.pick (sys.impl.inUse ++ sys.impl.sessions.map ClientSession.uniqueId))
        (Core.create E 0 sys.impl).2.2 ∧
      sys1.objects = sys.objects ++
        [some { mUniqueId := E.pick (sys.impl.inUse ++ sys.impl.sessions.map ClientSession.uniqueId)
                mDrmManagerClientImpl := some 1
                mDecryptLock := sys.objects.length }] := by
  simp only [System.step, Option.some.injEq, Prod.mk.injEq] at hstep
  obtain ⟨_, hs⟩ := hstep
  rw [← hs]
  exact ⟨rfl, rfl⟩

/-- Membership in the registry, spelled out. -/
theorem Core.known_iff {τ : Type} (k : Core τ) (x : Int) :
    k.known x = true ↔ x ∈ k.sessions.map ClientSession.uniqueId := by
  simp [Core.known]

/-- The id the allocator picks is not registered. -/
theorem Core.pick_not_known {τ : Type} (E : Surroundings τ) (k : Core τ) :
    E.pick (k.inUse ++ k.sessions.map ClientSession.uniqueId) ∉
      k.sessions.map ClientSession.uniqueId := by
  intro hmem
  exact E.pick_fresh _ (List.mem_append_right _ hmem)

/-- The core after a construction: one more session, under the id picked. -/
theorem Core.after_construct {τ : Type} (E : Surroundings τ) (k : Core τ) :
    (Core.addClient (E.pick (k.inUse ++ k.sessions.map ClientSession.uniqueId))
        (Core.create E 0 k).2.2).sessions =
      { uniqueId := E.pick (k.inUse ++ k.sessions.map ClientSession.uniqueId), listener := none }
        :: k.sessions ∧
    (Core.addClient (E.pick (k.inUse ++ k.sessions.map ClientSession.uniqueId))
        (Core.create E 0 k).2.2).handles = k.handles ∧
    (Core.addClient (E.pick (k.inUse ++ k.sessions.map ClientSession.uniqueId))
        (Core.create E 0 k).2.2).nextHandle = k.nextHandle := by
  have hfresh := Core.pick_not_known E k
  have hk : (Core.create E 0 k).2.2.known
      (E.pick (k.inUse ++ k.sessions.map ClientSession.uniqueId)) = false := by
    rw [Bool.eq_false_iff]
    intro h
    rw [Core.known_iff] at h
    exact hfresh h
  simp only [Core.addClient, hk]
  exact ⟨rfl, rfl, rfl⟩

/-- The core after a destruction of a registered client: its session is gone, its handles are
closed, nothing is issued. -/
theorem Core.after_destruct {τ : Type} (E : Surroundings τ) (k : Core τ) (uid : Int)
    (hk : k.known uid = true) :
    (Core.removeClient E uid (Core.remove uid k)).sessions =
      k.sessions.filter (fun s => decide (s.uniqueId ≠ uid)) ∧
    (Core.removeClient E uid (Core.remove uid k)).nextHandle = k.nextHandle ∧
    (∀ h, (Core.removeClient E uid (Core.remove uid k)).handles h = k.handles h ∨
      (Core.removeClient E uid (Core.remove uid k)).handles h = none) := by
  have hk1 : (Core.remove uid k).known uid = true := hk
  simp only [Core.removeClient, hk1, if_true]
  refine ⟨rfl, rfl, ?_⟩
  intro h
  simp only [Core.remove]
  cases hh : k.handles h with
  | none => simp
  | some d =>
    by_cases ho : d.owner = uid
    · simp [ho]
    · simp [ho]

/-- Filtering one id out of a registry without repetitions removes exactly one session. -/
theorem sessions_filter_length (l : List ClientSession) (uid : Int)
    (hnd : (l.map ClientSession.uniqueId).Nodup) (hmem : uid ∈ l.map ClientSession.uniqueId) :
    (l.filter (fun s => decide (s.uniqueId ≠ uid))).length + 1 = l.length := by
  induction l with
  | nil => simp at hmem
  | cons a l ih =>
    simp only [List.map_cons, List.nodup_cons] at hnd
    simp only [List.map_cons, List.mem_cons] at hmem
    by_cases ha : a.uniqueId = uid
    · have hnot : uid ∉ l.map ClientSession.uniqueId := ha ▸ hnd.1
      simp only [List.filter, ha, ne_eq, not_true_eq_false, decide_False, List.length_cons,
        add_left_inj]
      rw [List.filter_eq_self.2]
      intro s hs
      simp only [decide_not, Bool.not_eq_true', decide_eq_false_iff_not]
      intro he
      exact hnot (List.mem_map.2 ⟨s, hs, he⟩)
    · rcases hmem with he | hmem
      · exact absurd he.symm ha
      · have hlen := ih hnd.2 hmem
        simp only [ne_eq] at hlen
        simp only [List.filter, ha, ne_eq, not_false_eq_true, decide_True, List.length_cons]
        omega

/-- The invariant holds before anything is constructed. -/
theorem SysInv.init {τ : Type} (rest : τ) : SysInv (System.init (Core.init rest)) := by
  constructor
  · intro i cl h
    simp [System.init] at h
  · intro i j cl1 cl2 h
    simp [System.init] at h
  · intro uid h
    simp [System.init, Core.init, Core.known] at h
  · simp [System.init, Core.init]
  · intro h d hh
    simp [System.init, Core.init] at hh

/-- A call keeps the invariant. -/
theorem SysInv.call {τ : Type} (E : Surroundings τ) (sys sys1 : System (Core τ))
    (hinv : SysInv sys) (i : Nat) (c : Call) (r : Option Reply)
    (hstep : System.step (Core.impl E) sys (Op.call i c) = some (r, sys1)) : SysInv sys1 := by
  obtain ⟨cl, _, _, himpl, hobjs⟩ := System.step_call (Core.impl E) sys sys1 i c r hstep
  have hknown : ∀ x, sys1.impl.known x = sys.impl.known x := by
    intro x
    rw [himpl]
    exact Core.perform_known E cl.mUniqueId c sys.impl x
  constructor
  · intro j cl1 h
    rw [hobjs] at h
    rw [hknown]
    exact hinv.registered j cl1 h
  · intro j1 j2 cl1 cl2 h1 h2
    rw [hobjs] at h1 h2
    exact hinv.distinct j1 j2 cl1 cl2 h1 h2
  · intro uid h
    rw [hknown] at h
    obtain ⟨j, cl1, h1, h2⟩ := hinv.owned uid h
    exact ⟨j, cl1, by rw [hobjs]; exact h1, h2⟩
  · rw [himpl]
    have := Core.perform_sessions E cl.mUniqueId c sys.impl
    simp only [Core.impl] at this ⊢
    rw [this]
    exact hinv.nodup
  · rw [himpl]
    exact Core.perform_below E cl.mUniqueId c sys.impl hinv.below

/-- An entry of a list with one more element at the end is an entry of the list or the new
element. -/
theorem getElem?_snoc_cases {α : Type} (l : List α) (x a : α) (j : Nat)
    (h : (l ++ [x])[j]? = some a) : l[j]? = some a ∨ (j = l.length ∧ x = a) := by
  rw [List.getElem?_append] at h
  split at h
  · exact Or.inl h
  · rename_i hge
    right
    have hj : j - l.length = 0 := by
      by_contra hne
      rw [List.getElem?_eq_none (by simp; omega)] at h
      exact absurd h (by simp)
    rw [hj] at h
    simp only [List.getElem?_cons_zero, Option.some.injEq] at h
    exact ⟨by omega, h⟩

/-- An entry of a list is still there after one more element was put at the end. -/
theorem getElem?_snoc_of_some {α : Type} (l : List α) (x a : α) (j : Nat)
    (h : l[j]? = some a) : (l ++ [x])[j]? = some a := by
  have hlt : j < l.length := by
    by_contra hge
    rw [List.getElem?_eq_none (by omega)] at h
    exact absurd h (by simp)
  rw [List.getElem?_append, if_pos hlt]
  exact h

/-- An existing object after slot `i` was emptied is an existing object in another slot. -/
theorem getElem?_set_none_cases {α : Type} (l : List (Option α)) (i j : Nat) (a : α)
    (h : (l.set i none)[j]? = some (some a)) : j ≠ i ∧ l[j]? = some (some a) := by
  rw [List.getElem?_set] at h
  by_cases e : i = j
  · subst e
    simp only [if_true] at h
    split at h
    · exact absurd h (by simp)
    · exact absurd h (by simp)
  · simp only [e, if_false] at h
    exact ⟨fun he => e he.symm, h⟩

/-- A construction keeps the invariant. -/
theorem SysInv.construct {τ : Type} (E : Surroundings τ) (sys sys1 : System (Core τ))
    (hinv : SysInv sys) (r : Option Reply)
    (hstep : System.step (Core.impl E) sys Op.construct = some (r, sys1)) : SysInv sys1 := by
  obtain ⟨himpl, hobjs⟩ := System.step_construct E sys sys1 r hstep
  obtain ⟨hsess, hhandles, hnext⟩ := Core.after_construct E sys.impl
  have hfresh := Core.pick_not_known E sys.impl
  have hknown : ∀ x, sys1.impl.known x = true ↔
      (x = E.pick (sys.impl.inUse ++ sys.impl.sessions.map ClientSession.uniqueId) ∨
        sys.impl.known x = true) := by
    intro x
    rw [Core.known_iff, Core.known_iff, himpl, hsess]
    simp
  constructor
  · intro j cl h
    rw [hobjs] at h
    rw [hknown]
    rcases getElem?_snoc_cases _ _ _ _ h with hold | ⟨_, hnew⟩
    · exact Or.inr (hinv.registered j cl hold)
    · left
      simp only [Option.some.injEq] at hnew
      rw [← hnew]
  · intro j1 j2 cl1 cl2 h1 h2 heq
    rw [hobjs] at h1 h2
    rcases getElem?_snoc_cases _ _ _ _ h1 with hold1 | ⟨hj1, hnew1⟩ <;>
      rcases getElem?_snoc_cases _ _ _ _ h2 with hold2 | ⟨hj2, hnew2⟩
    · exact hinv.distinct j1 j2 cl1 cl2 hold1 hold2 heq
    · exfalso
      simp only [Option.some.injEq] at hnew2
      have hk := hinv.registered j1 cl1 hold1
      rw [Core.known_iff, heq, ← hnew2] at hk
      exact hfresh hk
    · exfalso
      simp only [Option.some.injEq] at hnew1
      have hk := hinv.registered j2 cl2 hold2
      rw [Core.known_iff, ← heq, ← hnew1] at hk
      exact hfresh hk
    · rw [hj1, hj2]
  · intro uid h
    rw [hknown] at h
    rcases h with rfl | hold
    · refine ⟨sys.objects.length,
        { mUniqueId := E.pick (sys.impl.inUse ++ sys.impl.sessions.map ClientSession.uniqueId)
          mDrmManagerClientImpl := some 1
          mDecryptLock := sys.objects.length }, ?_, rfl⟩
      rw [hobjs]
      simp
    · obtain ⟨j, cl, h1, h2⟩ := hinv.owned uid hold
      refine ⟨j, cl, ?_, h2⟩
      rw [hobjs]
      exact getElem?_snoc_of_some _ _ _ _ h1
  · rw [himpl, hsess]
    simp only [List.map_cons, List.nodup_cons]
    exact ⟨hfresh, hinv.nodup⟩
  · intro h d hh
    rw [himpl, hhandles] at hh
    rw [himpl, hnext]
    exact hinv.below h d hh

/-- A destruction keeps the invariant. -/
theorem SysInv.destruct {τ : Type} (E : Surroundings τ) (sys sys1 : System (Core τ))
    (hinv : SysInv sys) (i : Nat) (r : Option Reply)
    (hstep : System.step (Core.impl E) sys (Op.destruct i) = some (r, sys1)) : SysInv sys1 := by
  obtain ⟨cl, hobj, himpl, hobjs⟩ := System.step_destruct E sys sys1 i r hstep
  have hk := hinv.registered i cl hobj
  obtain ⟨hsess, hnext, hhandles⟩ := Core.after_destruct E sys.impl cl.mUniqueId hk
  have hknown : ∀ x, sys1.impl.known x = true ↔ (sys.impl.known x = true ∧ x ≠ cl.mUniqueId) := by
    intro x
    rw [Core.known_iff, Core.known_iff, himpl, hsess]
    simp only [List.mem_map, List.mem_filter, ne_eq, decide_not, Bool.not_eq_true',
      decide_eq_false_iff_not]
    constructor
    · rintro ⟨s, ⟨hs, hne⟩, rfl⟩
      exact ⟨⟨s, hs, rfl⟩, hne⟩
    · rintro ⟨⟨s, hs, rfl⟩, hne⟩
      exact ⟨s, ⟨hs, hne⟩, rfl⟩
  constructor
  · intro j cl1 h
    rw [hobjs] at h
    obtain ⟨hne, hold⟩ := getElem?_set_none_cases _ _ _ _ h
    rw [hknown]
    refine ⟨hinv.registered j cl1 hold, ?_⟩
    intro heq
    exact hne (hinv.distinct j i cl1 cl hold hobj heq)
  · intro j1 j2 cl1 cl2 h1 h2
    rw [hobjs] at h1 h2
    exact hinv.distinct j1 j2 cl1 cl2 (getElem?_set_none_cases _ _ _ _ h1).2
      (getElem?_set_none_cases _ _ _ _ h2).2
  · intro uid h
    rw [hknown] at h
    obtain ⟨j, cl1, h1, h2⟩ := hinv.owned uid h.1
    refine ⟨j, cl1, ?_, h2⟩
    rw [hobjs, List.getElem?_set]
    have hne : i ≠ j := by
      intro he
      subst he
      rw [hobj] at h1
      simp only [Option.some.injEq] at h1
      exact h.2 (by rw [← h2, h1])
    simp only [hne, if_false]
    exact h1
  · rw [himpl, hsess]
    exact hinv.nodup.sublist ((List.filter_sublist _).map _)
  · intro h d hh
    rw [himpl] at hh ⊢
    rw [hnext]
    rcases hhandles h with hsame | hnone
    · rw [hsame] at hh
      exact hinv.below h d hh
    · rw [hnone] at hh
      exact absurd hh (by simp)

/-- Every step keeps the invariant. -/
theorem SysInv.op_step {τ : Type} (E : Surroundings τ) (sys sys1 : System (Core τ))
    (hinv : SysInv sys) (op : Op) (r : Option Reply)
    (hstep : System.step (Core.impl E) sys op = some (r, sys1)) : SysInv sys1 := by
  cases op with
  | construct => exact SysInv.construct E sys sys1 hinv r hstep
  | destruct i => exact SysInv.destruct E sys sys1 hinv i r hstep
  | call i c => exact SysInv.call E sys sys1 hinv i c r hstep

/-- Every sequence of steps keeps the invariant. -/
theorem SysInv.op_run {τ : Type} (E : Surroundings τ) (ops : List Op) (sys sys1 : System (Core τ))
    (hinv : SysInv sys) (hrun : System.run (Core.impl E) ops sys = some sys1) : SysInv sys1 := by
  induction ops generalizing sys with
  | nil =>
    simp only [System.run, Option.some.injEq] at hrun
    subst hrun
    exact hinv
  | cons op ops ih =>
    simp only [System.run] at hrun
    cases hstep : System.step (Core.impl E) sys op with
    | none => simp [hstep] at hrun
    | some out =>
      simp only [hstep] at hrun
      exact ih out.2 (SysInv.op_step E sys out.2 hinv op out.1 hstep) hrun

/-- Emptying a slot that holds an object leaves one object less. -/
theorem filter_isSome_set_none {α : Type} (l : List (Option α)) (i : Nat) (a : α)
    (h : l[i]? = some (some a)) :
    ((l.set i none).filter Option.isSome).length + 1 = (l.filter Option.isSome).length := by
  induction l generalizing i with
  | nil => simp at h
  | cons x l ih =>
    cases i with
    | zero =>
      simp only [List.getElem?_cons_zero, Option.some.injEq] at h
      subst h
      simp [List.filter]
    | succ i =>
      simp only [List.getElem?_cons_succ] at h
      have hlen := ih i h
      cases x with
      | none => simpa [List.filter] using hlen
      | some b =>
        simp only [List.set_cons_succ, List.filter, Option.isSome_some, List.length_cons]
        omega

/-- One step changes the number of sessions and the number of objects as it changes the number
of attaches and detaches. -/
theorem System.step_count {τ : Type} (E : Surroundings τ) (sys sys1 : System (Core τ))
    (hinv : SysInv sys) (op : Op) (r : Option Reply)
    (hstep : System.step (Core.impl E) sys op = some (r, sys1)) :
    sys1.impl.sessions.length + detaches [op] = sys.impl.sessions.length + attaches [op] ∧
      sys1.liveCount + detaches [op] = sys.liveCount + attaches [op] := by
  cases op with
  | construct =>
    obtain ⟨himpl, hobjs⟩ := System.step_construct E sys sys1 r hstep
    obtain ⟨hsess, _, _⟩ := Core.after_construct E sys.impl
    constructor
    · rw [himpl, hsess]
      simp [attaches, detaches]
    · simp [System.liveCount, hobjs, attaches, detaches]
  | destruct i =>
    obtain ⟨cl, hobj, himpl, hobjs⟩ := System.step_destruct E sys sys1 i r hstep
    have hk := hinv.registered i cl hobj
    obtain ⟨hsess, _, _⟩ := Core.after_destruct E sys.impl cl.mUniqueId hk
    have ha : attaches [Op.destruct i] = 0 := by simp [attaches]
    have hd : detaches [Op.destruct i] = 1 := by simp [detaches]
    rw [ha, hd]
    constructor
    · rw [himpl, hsess]
      have hlen := sessions_filter_length sys.impl.sessions cl.mUniqueId hinv.nodup
        ((Core.known_iff _ _).1 hk)
      omega
    · have hlen := filter_isSome_set_none sys.objects i cl hobj
      simp only [System.liveCount, hobjs]
      omega
  | call i c =>
    obtain ⟨cl, _, _, himpl, hobjs⟩ := System.step_call (Core.impl E) sys sys1 i c r hstep
    have ha : attaches [Op.call i c] = 0 := by simp [attaches]
    have hd : detaches [Op.call i c] = 0 := by simp [detaches]
    rw [ha, hd]
    constructor
    · have hs := congrArg List.length (Core.perform_sessions E cl.mUniqueId c sys.impl)
      simp only [List.length_map] at hs
      rw [himpl]
      simp only [Core.impl]
      omega
    · have hl : sys1.objects = sys.objects := List.ext_getElem? hobjs
      simp only [System.liveCount, hl]

/-- Attaches of a sequence that starts with a step. -/
theorem attaches_cons (op : Op) (ops : List Op) :
    attaches (op :: ops) = attaches [op] + attaches ops := by
  simp only [attaches, List.filter]
  split <;> simp
  omega

/-- Detaches of a sequence that starts with a step. -/
theorem detaches_cons (op : Op) (ops : List Op) :
    detaches (op :: ops) = detaches [op] + detaches ops := by
  simp only [detaches, List.filter]
  split <;> simp
  omega

/-- Along any sequence of steps, sessions and objects grow with the attaches and shrink with
the detaches. -/
theorem System.run_count {τ : Type} (E : Surroundings τ) (ops : List Op)
    (sys sys1 : System (Core τ)) (hinv : SysInv sys)
    (hrun : System.run (Core.impl E) ops sys = some sys1) :
    sys1.impl.sessions.length + detaches ops = sys.impl.sessions.length + attaches ops ∧
      sys1.liveCount + detaches ops = sys.liveCount + attaches ops := by
  induction ops generalizing sys with
  | nil =>
    simp only [System.run, Option.some.injEq] at hrun
    subst hrun
    simp [attaches, detaches]
  | cons op ops ih =>
    simp only [System.run] at hrun
    cases hstep : System.step (Core.impl E) sys op with
    | none => simp [hstep] at hrun
    | some out =>
      simp only [hstep] at hrun
      obtain ⟨h1, h2⟩ := System.step_count E sys out.2 hinv op out.1 hstep
      obtain ⟨h3, h4⟩ := ih out.2 (SysInv.op_step E sys out.2 hinv op out.1 hstep) hrun
      rw [attaches_cons, detaches_cons]
      constructor <;> omega

/-- One step and the readiness of a unit: if the unit is ready afterwards, the history says so. -/
theorem System.step_ready_history {τ : Type} (E : Surroundings τ) (sys sys1 : System (Core τ))
    (hinv : SysInv sys) (op : Op) (r : Option Reply) (h : Ptr) (u : Int) (acc : Bool)
    (hacc : sys.impl.unitReady h u = true → acc = true)
    (hstep : System.step (Core.impl E) sys op = some (r, sys1))
    (hready : sys1.impl.unitReady h u = true) : unitStep h u acc op = true := by
  cases op with
  | construct =>
    obtain ⟨himpl, _⟩ := System.step_construct E sys sys1 r hstep
    obtain ⟨_, hhandles, _⟩ := Core.after_construct E sys.impl
    simp only [Core.unitReady, himpl, hhandles] at hready
    exact hacc hready
  | destruct i =>
    obtain ⟨cl, hobj, himpl, _⟩ := System.step_destruct E sys sys1 i r hstep
    obtain ⟨_, _, hhandles⟩ :=
      Core.after_destruct E sys.impl cl.mUniqueId (hinv.registered i cl hobj)
    simp only [Core.unitReady, himpl] at hready
    rcases hhandles h with hsame | hnone
    · rw [hsame] at hready
      exact hacc hready
    · rw [hnone] at hready
      simp [readyIn] at hready
  | call i c =>
    obtain ⟨cl, hobj, _, himpl, _⟩ := System.step_call (Core.impl E) sys sys1 i c r hstep
    have hk := hinv.registered i cl hobj
    rw [himpl] at hready
    have horigin := Core.perform_ready_origin E cl.mUniqueId c sys.impl h u hready
    cases c
    case initializeDecryptUnit h1 u1 hdr =>
      simp only [unitStep]
      split
      · rfl
      · rename_i hne
        rcases horigin with hold | ⟨hdr1, heq⟩
        · exact hacc hold
        · simp only [Call.initializeDecryptUnit.injEq] at heq
          exact absurd ⟨heq.1, heq.2.1⟩ hne
    case finalizeDecryptUnit h1 u1 =>
      simp only [unitStep]
      split
      · rename_i heq
        have hclear := Core.perform_finalize_clears E cl.mUniqueId sys.impl h u hk
        simp only [Core.impl] at hready
        rw [heq.1, heq.2, hclear] at hready
        exact absurd hready (by simp)
      · rcases horigin with hold | ⟨hdr1, heq⟩
        · exact hacc hold
        · simp at heq
    all_goals
      simp only [unitStep]
      rcases horigin with hold | ⟨hdr1, heq⟩
      · exact hacc hold
      · simp at heq

/-- Along any sequence of steps: a unit that is ready at the end was initialized by a call that
no call finalizing it follows. -/
theorem System.run_ready_history {τ : Type} (E : Surroundings τ) (ops : List Op)
    (sys sys1 : System (Core τ)) (hinv : SysInv sys) (h : Ptr) (u : Int) (acc : Bool)
    (hacc : sys.impl.unitReady h u = true → acc = true)
    (hrun : System.run (Core.impl E) ops sys = some sys1)
    (hready : sys1.impl.unitReady h u = true) : ops.foldl (unitStep h u) acc = true := by
  induction ops generalizing sys acc with
  | nil =>
    simp only [System.run, Option.some.injEq] at hrun
    subst hrun
    exact hacc hready
  | cons op ops ih =>
    simp only [System.run] at hrun
    cases hstep : System.step (Core.impl E) sys op with
    | none => simp [hstep] at hrun
    | some out =>
      simp only [hstep] at hrun
      simp only [List.foldl_cons]
      exact ih out.2 (SysInv.op_step E sys out.2 hinv op out.1 hstep) (unitStep h u acc op)
        (System.step_ready_history E sys out.2 hinv op out.1 h u acc hacc hstep) hrun

/-- One step leaves a handle that was issued and is not open as it is. -/
theorem System.step_closed {τ : Type} (E : Surroundings τ) (sys sys1 : System (Core τ))
    (hinv : SysInv sys) (op : Op) (r : Option Reply) (h : Ptr)
    (hn : sys.impl.handles h = none) (hlt : h < sys.impl.nextHandle)
    (hstep : System.step (Core.impl E) sys op = some (r, sys1)) :
    sys1.impl.handles h = none ∧ h < sys1.impl.nextHandle := by
  cases op with
  | construct =>
    obtain ⟨himpl, _⟩ := System.step_construct E sys sys1 r hstep
    obtain ⟨_, hhandles, hnext⟩ := Core.after_construct E sys.impl
    rw [himpl, hhandles, hnext]
    exact ⟨hn, hlt⟩
  | destruct i =>
    obtain ⟨cl, hobj, himpl, _⟩ := System.step_destruct E sys sys1 i r hstep
    obtain ⟨_, hnext, hhandles⟩ :=
      Core.after_destruct E sys.impl cl.mUniqueId (hinv.registered i cl hobj)
    rw [himpl, hnext]
    refine ⟨?_, hlt⟩
    rcases hhandles h with hsame | hnone
    · rw [hsame]
      exact hn
    · exact hnone
  | call i c =>
    obtain ⟨cl, _, _, himpl, _⟩ := System.step_call (Core.impl E) sys sys1 i c r hstep
    rw [himpl]
    exact ⟨Core.perform_closed E cl.mUniqueId c sys.impl h hn hlt,
      Nat.lt_of_lt_of_le hlt (Core.perform_nextHandle E cl.mUniqueId c sys.impl)⟩

/-- Along any sequence of steps a handle that was issued and is not open stays not open. -/
theorem System.run_closed {τ : Type} (E : Surroundings τ) (ops : List Op)
    (sys sys1 : System (Core τ)) (hinv : SysInv sys) (h : Ptr)
    (hn : sys.impl.handles h = none) (hlt : h < sys.impl.nextHandle)
    (hrun : System.run (Core.impl E) ops sys = some sys1) : sys1.impl.handles h = none := by
  induction ops generalizing sys with
  | nil =>
    simp only [System.run, Option.some.injEq] at hrun
    subst hrun
    exact hn
  | cons op ops ih =>
    simp only [System.run] at hrun
    cases hstep : System.step (Core.impl E) sys op with
    | none => simp [hstep] at hrun
    | some out =>
      simp only [hstep] at hrun
      obtain ⟨h1, h2⟩ := System.step_closed E sys out.2 hinv op out.1 h hn hlt hstep
      exact ih out.2 (SysInv.op_step E sys out.2 hinv op out.1 hstep) h1 h2 hrun

/-- The mutex of every object that exists is identified by the address of the object, for any
implementation: one step keeps it so. -/
theorem System.step_lock_identity {σ ρ : Type} (I : DrmManagerClientImpl σ ρ)
    (sys sys1 : System σ) (op : Op) (r : Option ρ)
    (hid : ∀ (i : Nat) (cl : DrmManagerClient),
      sys.objects[i]? = some (some cl) → cl.mDecryptLock = i)
    (hstep : System.step I sys op = some (r, sys1)) :
    ∀ (i : Nat) (cl : DrmManagerClient),
      sys1.objects[i]? = some (some cl) → cl.mDecryptLock = i := by
  cases op with
  | construct =>
    simp only [System.step, Option.some.injEq, Prod.mk.injEq] at hstep
    obtain ⟨_, hs⟩ := hstep
    intro i cl h
    rw [← hs] at h
    rcases getElem?_snoc_cases _ _ _ _ h with hold | ⟨hi, hnew⟩
    · exact hid i cl hold
    · simp only [Option.some.injEq] at hnew
      rw [← hnew, hi]
      rfl
  | destruct j =>
    simp only [System.step] at hstep
    cases hobj : sys.objects[j]? with
    | none => simp [hobj] at hstep
    | some slot =>
      cases slot with
      | none => simp [hobj] at hstep
      | some cl0 =>
        simp only [hobj, Option.some.injEq, Prod.mk.injEq] at hstep
        obtain ⟨_, hs⟩ := hstep
        intro i cl h
        rw [← hs] at h
        exact hid i cl (getElem?_set_none_cases _ _ _ _ h).2
  | call j c =>
    obtain ⟨_, _, _, _, hobjs⟩ := System.step_call I sys sys1 j c r hstep
    intro i cl h
    rw [hobjs] at h
    exact hid i cl h

/-- The mutex of every object that exists is identified by the address of the object, for any
implementation, after any sequence of steps. -/
theorem System.run_lock_identity {σ ρ : Type} (I : DrmManagerClientImpl σ ρ) (ops : List Op)
    (sys sys1 : System σ)
    (hid : ∀ (i : Nat) (cl : DrmManagerClient),
      sys.objects[i]? = some (some cl) → cl.mDecryptLock = i)
    (hrun : System.run I ops sys = some sys1) :
    ∀ (i : Nat) (cl : DrmManagerClient),
      sys1.objects[i]? = some (some cl) → cl.mDecryptLock = i := by
  induction ops generalizing sys with
  | nil =>
    simp only [System.run, Option.some.injEq] at hrun
    subst hrun
    exact hid
  | cons op ops ih =>
    simp only [System.run] at hrun
    cases hstep : System.step I sys op with
    | none => simp [hstep] at hrun
    | some out =>
      simp only [hstep] at hrun
      exact ih out.2 (System.step_lock_identity I sys out.2 op out.1 hid hstep) hrun

/-! ## The claims about `DrmManagerClient` -/

/-- C1 (as amended): validateAction forwards to the implementation without taking
mDecryptLock, its only events being the entry into and the return from the implementation,
whereas consumeRights holds the mutex of the client from before the entry until after the
return; so the client does not keep the two apart: with one thread in each, the schedule
"consumeRights locks and enters, validateAction enters" runs, and then both threads are inside
the implementation for the same client. -/
theorem C1_validateAction_runs_unlocked {σ ρ : Type} (I : DrmManagerClientImpl σ ρ)
    (s : Frame σ) (path : String) (action : Int) (description decryptHandle : Ptr)
    (action2 : Int) (reserve : Bool) :
    (DrmManagerClient.validateAction I path action description s).2.trace =
        s.trace ++
          [Event.invoke s.self.mUniqueId (Call.validateAction path action description),
            Event.returned s.self.mUniqueId (Call.validateAction path action description)] ∧
      (DrmManagerClient.consumeRights I decryptHandle action2 reserve s).2.trace =
        s.trace ++
          [Event.acquire s.self.mDecryptLock,
            Event.invoke s.self.mUniqueId (Call.consumeRights decryptHandle action2 reserve),
            Event.returned s.self.mUniqueId (Call.consumeRights decryptHandle action2 reserve),
            Event.release s.self.mDecryptLock] ∧
      (Conc.run [1, 1, 0]
          ([[(s.self, Call.validateAction path action description)],
            [(s.self, Call.consumeRights decryptHandle action2 reserve)]].map Thread.start)).map
          (fun ts => ts.map Thread.inside) =
        some [some (s.self, Call.validateAction path action description),
          some (s.self, Call.consumeRights decryptHandle action2 reserve)] := by
  refine ⟨?_, ?_, ?_⟩
  · simp [DrmManagerClient.validateAction, forward_eq]
  · simp [DrmManagerClient.consumeRights, autolock_forward_eq]
  · simp [Conc.run, Conc.step, Thread.start, scriptOf, footprint_eq, Call.decryptSensitive]

/-- C1, counterexample: on the sample client (mutex 0) the events of validateAction contain no
acquisition of the mutex, and a schedule exists after which one thread is inside
validateAction and another inside consumeRights of that same client. -/
theorem C1_validateAction_lock_counterexample :
    Event.acquire DrmManagerClient.sample.mDecryptLock ∉
        (DrmManagerClient.validateAction DrmManagerClientImpl.silent "a.dcf" 1 0
          Frame.sample).2.trace ∧
      (Conc.run [1, 1, 0]
          ([[(DrmManagerClient.sample, Call.validateAction "a.dcf" 1 0)],
            [(DrmManagerClient.sample, Call.consumeRights 1 1 false)]].map Thread.start)).map
          (fun ts => ts.map Thread.inside) =
        some [some (DrmManagerClient.sample, Call.validateAction "a.dcf" 1 0),
          some (DrmManagerClient.sample, Call.consumeRights 1 1 false)] := by
  constructor
  · decide
  · rfl

/-- C2: each of consumeRights, initializeDecryptUnit, decrypt, finalizeDecryptUnit and pread
acquires the mutex of its own client before it enters the implementation and releases it
after the implementation has returned, and that is the last thing it does; no member function
acquires or releases any other mutex, and two client objects that exist never share a mutex;
hence, however threads are scheduled, two different threads are never both inside
decrypt-sensitive operations of the same client, and a thread that has returned from all its
calls holds no mutex. -/
theorem C2_decrypt_operations_hold_own_lock :
    (∀ (σ ρ : Type) (I : DrmManagerClientImpl σ ρ) (c : Call) (s : Frame σ),
      c.decryptSensitive = true →
      (DrmManagerClient.call I c s).2.trace =
        s.trace ++ [Event.acquire s.self.mDecryptLock, Event.invoke s.self.mUniqueId c,
          Event.returned s.self.mUniqueId c, Event.release s.self.mDecryptLock]) ∧
    (∀ (self : DrmManagerClient) (c : Call) (m : Mutex),
      (Event.acquire m ∈ footprint self c ∨ Event.release m ∈ footprint self c) →
      m = self.mDecryptLock) ∧
    (∀ (progs : List (List (DrmManagerClient × Call))) (sched : List Nat) (ts : List Thread),
      Conc.run sched (progs.map Thread.start) = some ts →
      ∀ (t1 t2 : Nat) (th1 th2 : Thread) (cl1 cl2 : DrmManagerClient) (c1 c2 : Call),
        ts[t1]? = some th1 → ts[t2]? = some th2 →
        th1.inside = some (cl1, c1) → th2.inside = some (cl2, c2) →
        c1.decryptSensitive = true → c2.decryptSensitive = true →
        cl1.mDecryptLock = cl2.mDecryptLock → t1 = t2) ∧
    (∀ (progs : List (List (DrmManagerClient × Call))) (sched : List Nat) (ts : List Thread),
      Conc.run sched (progs.map Thread.start) = some ts →
      ∀ (t : Nat) (th : Thread), ts[t]? = some th → th.script = [] →
        th.holds = [] ∧ th.inside = none) ∧
    (∀ (σ ρ : Type) (I : DrmManagerClientImpl σ ρ) (impl : σ) (ops : List Op) (sys : System σ),
      System.run I ops (System.init impl) = some sys →
      ∀ (i j : Nat) (cl1 cl2 : DrmManagerClient),
        sys.objects[i]? = some (some cl1) → sys.objects[j]? = some (some cl2) →
        cl1.mDecryptLock = cl2.mDecryptLock → i = j) := by
  refine ⟨?_, ?_, ?_, ?_, ?_⟩
  · intro σ ρ I c s hs
    rw [DrmManagerClient.call_eq, hs, if_pos rfl, autolock_forward_eq]
  · intro self c m hm
    rw [footprint_eq] at hm
    cases hs : c.decryptSensitive
    · simp [hs] at hm
    · simp only [hs, if_true, List.mem_cons, Event.acquire.injEq, Event.release.injEq,
        List.mem_singleton, List.not_mem_nil, reduceCtorEq, false_or, or_false] at hm
      rcases hm with h | h
      · exact h
      · exact h
  · intro progs sched ts hrun t1 t2 th1 th2 cl1 cl2 c1 c2 h1 h2 i1 i2 s1 s2 hm
    exact Conc.mutual_exclusion progs sched ts hrun t1 t2 th1 th2 cl1 cl2 c1 c2 h1 h2 i1 i2
      s1 s2 hm
  · intro progs sched ts hrun t th hth hdone
    exact (((Conc.Inv.start progs).schedule sched hrun).1 t th hth).done hdone
  · intro σ ρ I impl ops sys hrun i j cl1 cl2 h1 h2 hm
    have hid := System.run_lock_identity I ops (System.init impl) sys
      (by intro i cl h; simp [System.init] at h) hrun
    rw [← hid i cl1 h1, ← hid j cl2 h2]
    exact hm

/-- Witness of C2: decrypt on the sample client acquires mutex 0, enters, returns and releases;
and of two threads calling decrypt on that client, once the first is inside the implementation
the second cannot take a step. -/
theorem C2_decrypt_operations_hold_own_lock_witness :
    (DrmManagerClient.call DrmManagerClientImpl.silent (Call.decrypt 1 0 0 0 0)
        Frame.sample).2.trace =
      [Event.acquire 0, Event.invoke 7 (Call.decrypt 1 0 0 0 0),
        Event.returned 7 (Call.decrypt 1 0 0 0 0), Event.release 0] ∧
    ∃ ts, Conc.run [0, 0]
        ([[(DrmManagerClient.sample, Call.decrypt 1 0 0 0 0)],
          [(DrmManagerClient.sample, Call.decrypt 1 1 0 0 0)]].map Thread.start) = some ts ∧
      ts.map Thread.inside = [some (DrmManagerClient.sample, Call.decrypt 1 0 0 0 0), none] ∧
      Conc.step ts 1 = none :=
  ⟨C2_decrypt_operations_hold_own_lock.1 Unit Unit DrmManagerClientImpl.silent
      (Call.decrypt 1 0 0 0 0) Frame.sample rfl,
    _, rfl, rfl, by decide⟩

/-- C5: the constructor registers exactly the id that `create` wrote, once, via `addClient`,
and the destructor unregisters exactly the id of the object, once, via `remove` and
`removeClient`, for any implementation; over the core modelled from the specification, after
every sequence of constructions, destructions and calls the number of registered
ClientSessions, and the number of client objects that exist, is the number of attaches minus
the number of detaches, the registered ids are exactly the ids of the objects that exist, and
no two objects that exist have the same unique id. -/
theorem C5_sessions_equal_attaches_minus_detaches {τ : Type} (E : Surroundings τ) (rest : τ)
    (ops : List Op) (sys : System (Core τ))
    (hrun : System.run (Core.impl E) ops (System.init (Core.init rest)) = some sys) :
    (∀ (σ ρ : Type) (I : DrmManagerClientImpl σ ρ) (lock : Mutex) (impl : σ)
        (trace : List Event),
      (DrmManagerClient.ctor I lock impl trace).self.mUniqueId = (I.create 0 impl).2.1 ∧
      (DrmManagerClient.ctor I lock impl trace).impl =
        I.addClient (I.create 0 impl).2.1 (I.create 0 impl).2.2 ∧
      (DrmManagerClient.ctor I lock impl trace).trace =
        trace ++ [Event.create (I.create 0 impl).2.1, Event.addClient (I.create 0 impl).2.1]) ∧
    (∀ (σ ρ : Type) (I : DrmManagerClientImpl σ ρ) (s : Frame σ),
      (DrmManagerClient.dtor I s).impl =
        I.removeClient s.self.mUniqueId (I.remove s.self.mUniqueId s.impl) ∧
      (DrmManagerClient.dtor I s).trace =
        s.trace ++ [Event.remove s.self.mUniqueId, Event.removeClient s.self.mUniqueId]) ∧
    sys.impl.sessions.length + detaches ops = attaches ops ∧
    sys.impl.sessions.length = attaches ops - detaches ops ∧
    sys.liveCount = attaches ops - detaches ops ∧
    (∀ (i : Nat) (cl : DrmManagerClient), sys.objects[i]? = some (some cl) →
      cl.mUniqueId ∈ sys.impl.sessions.map ClientSession.uniqueId) ∧
    (∀ uid : Int, uid ∈ sys.impl.sessions.map ClientSession.uniqueId →
      ∃ (i : Nat) (cl : DrmManagerClient),
        sys.objects[i]? = some (some cl) ∧ cl.mUniqueId = uid) ∧
    (sys.impl.sessions.map ClientSession.uniqueId).Nodup ∧
    (∀ (i j : Nat) (cl1 cl2 : DrmManagerClient),
      sys.objects[i]? = some (some cl1) → sys.objects[j]? = some (some cl2) →
      cl1.mUniqueId = cl2.mUniqueId → i = j) := by
  have hinv := SysInv.op_run E ops _ sys (SysInv.init rest) hrun
  obtain ⟨hc1, hc2⟩ := System.run_count E ops _ sys (SysInv.init rest) hrun
  simp only [System.init, Core.init, System.liveCount, List.length_nil, List.filter_nil,
    Nat.zero_add] at hc1 hc2
  refine ⟨?_, ?_, hc1, by omega, ?_, ?_, ?_, hinv.nodup, hinv.distinct⟩
  · intro σ ρ I lock impl trace
    exact ⟨rfl, rfl, rfl⟩
  · intro σ ρ I s
    simp [DrmManagerClient.dtor]
  · simp only [System.liveCount]
    omega
  · intro i cl h
    exact (Core.known_iff _ _).1 (hinv.registered i cl h)
  · intro uid h
    exact hinv.owned uid ((Core.known_iff _ _).2 h)

/-- Witness of C5: over the sample surroundings, after construct, construct, destruct 0,
construct there are two registered sessions, for three attaches and one detach. -/
theorem C5_sessions_equal_attaches_minus_detaches_witness :
    ∃ sys, System.run (Core.impl Surroundings.sample) sampleLifecycle
        (System.init (Core.init ())) = some sys ∧
      sys.impl.sessions.length = 2 ∧ attaches sampleLifecycle = 3 ∧
      detaches sampleLifecycle = 1 ∧
      sys.impl.sessions.length + detaches sampleLifecycle = attaches sampleLifecycle :=
  ⟨_, rfl, by decide, by decide, by decide,
    (C5_sessions_equal_attaches_minus_detaches Surroundings.sample () sampleLifecycle _
      rfl).2.2.1⟩

/-- C7: canHandle has no observable side effect. Over the core modelled from the
specification, calling canHandle any number of times on a client in any state returns the same
answer each time, namely that of the capability resolver, leaves the whole state of the core
(constraints and rights included) and the client object (unique id, mutex) as they were, and
its only events are the entries into and returns from the implementation: the mutex is
neither acquired nor released. -/
theorem C7_canHandle_no_side_effect {τ : Type} (E : Surroundings τ) (s : Frame (Core τ))
    (path mimeType : String) (n : Nat) :
    (DrmManagerClient.callAll (Core.impl E)
        (List.replicate n (Call.canHandle path mimeType)) s).1 =
      List.replicate n (Reply.flag (E.canHandle path mimeType)) ∧
    (DrmManagerClient.callAll (Core.impl E)
        (List.replicate n (Call.canHandle path mimeType)) s).2.impl = s.impl ∧
    (DrmManagerClient.callAll (Core.impl E)
        (List.replicate n (Call.canHandle path mimeType)) s).2.self = s.self ∧
    (DrmManagerClient.callAll (Core.impl E)
        (List.replicate n (Call.canHandle path mimeType)) s).2.trace =
      s.trace ++ (List.replicate n
        [Event.invoke s.self.mUniqueId (Call.canHandle path mimeType),
          Event.returned s.self.mUniqueId (Call.canHandle path mimeType)]).flatten ∧
    (DrmManagerClient.canHandle (Core.impl E) path mimeType s).1 =
      Reply.flag (E.canHandle path mimeType) := by
  refine ⟨?_, ?_, ?_, ?_, ?_⟩
  · induction n generalizing s with
    | zero => rfl
    | succ n ih =>
      simp only [List.replicate_succ, DrmManagerClient.callAll, DrmManagerClient.call,
        DrmManagerClient.canHandle, forward_eq]
      rw [ih]
      rfl
  · induction n generalizing s with
    | zero => rfl
    | succ n ih =>
      simp only [List.replicate_succ, DrmManagerClient.callAll, DrmManagerClient.call,
        DrmManagerClient.canHandle, forward_eq]
      rw [ih]
      rfl
  · induction n generalizing s with
    | zero => rfl
    | succ n ih =>
      simp only [List.replicate_succ, DrmManagerClient.callAll, DrmManagerClient.call,
        DrmManagerClient.canHandle, forward_eq]
      rw [ih]
  · induction n generalizing s with
    | zero => simp [DrmManagerClient.callAll]
    | succ n ih =>
      simp only [List.replicate_succ, DrmManagerClient.callAll, DrmManagerClient.call,
        DrmManagerClient.canHandle, forward_eq]
      rw [ih]
      simp
  · simp only [DrmManagerClient.canHandle, forward_eq]
    rfl

/-- C3: over the core modelled from the specification, after any sequence of constructions,
destructions and calls in which no `initializeDecryptUnit(handle, U, ...)` occurs, or a
`finalizeDecryptUnit(handle, U)` follows the last one, `decrypt(handle, U, ...)` by any client
that exists on a decrypt handle (a handle that is open) returns ProtocolViolation, which is
not success, and changes nothing in the core. -/
theorem C3_decrypt_uninitialized_unit {τ : Type} (E : Surroundings τ) (rest : τ)
    (ops : List Op) (sys : System (Core τ)) (i : Nat) (cl : DrmManagerClient)
    (decryptHandle : Ptr) (d : DecryptSession) (decryptUnitId : Int)
    (encBuffer decBuffer IV : Ptr)
    (hrun : System.run (Core.impl E) ops (System.init (Core.init rest)) = some sys)
    (hobj : sys.objects[i]? = some (some cl))
    (hopen : sys.impl.handles decryptHandle = some d)
    (hhist : unitInitialized decryptHandle decryptUnitId ops = false) :
    (DrmManagerClient.decrypt (Core.impl E) decryptHandle decryptUnitId encBuffer decBuffer IV
        { self := cl, impl := sys.impl, trace := sys.trace }).1 =
      Reply.status Status.protocolViolation ∧
    (DrmManagerClient.decrypt (Core.impl E) decryptHandle decryptUnitId encBuffer decBuffer IV
        { self := cl, impl := sys.impl, trace := sys.trace }).1 ≠ Reply.status Status.ok ∧
    (DrmManagerClient.decrypt (Core.impl E) decryptHandle decryptUnitId encBuffer decBuffer IV
        { self := cl, impl := sys.impl, trace := sys.trace }).2.impl = sys.impl ∧
    ∃ sys1, System.step (Core.impl E) sys
        (Op.call i (Call.decrypt decryptHandle decryptUnitId encBuffer decBuffer IV)) =
      some (some (Reply.status Status.protocolViolation), sys1) := by
  have hinv := SysInv.op_run E ops _ sys (SysInv.init rest) hrun
  have hk := hinv.registered i cl hobj
  have hnot : decryptUnitId ∉ d.ready := by
    intro hmem
    have hready : sys.impl.unitReady decryptHandle decryptUnitId = true := by
      simp [Core.unitReady, readyIn, hopen, hmem]
    have hini := System.run_ready_history E ops _ sys (SysInv.init rest) decryptHandle
      decryptUnitId false (by simp [System.init, Core.init, Core.unitReady, readyIn]) hrun hready
    simp only [unitInitialized] at hhist
    rw [hini] at hhist
    exact absurd hhist (by simp)
  have hperform := Core.perform_decrypt_not_ready E cl.mUniqueId sys.impl decryptHandle
    decryptUnitId encBuffer decBuffer IV d hk hopen hnot
  have hval : (DrmManagerClient.decrypt (Core.impl E) decryptHandle decryptUnitId encBuffer
      decBuffer IV { self := cl, impl := sys.impl, trace := sys.trace }) =
      (Reply.status Status.protocolViolation,
        { self := cl, impl := sys.impl
          trace := sys.trace ++
            [Event.acquire cl.mDecryptLock,
              Event.invoke cl.mUniqueId
                (Call.decrypt decryptHandle decryptUnitId encBuffer decBuffer IV),
              Event.returned cl.mUniqueId
                (Call.decrypt decryptHandle decryptUnitId encBuffer decBuffer IV),
              Event.release cl.mDecryptLock] }) := by
    simp only [DrmManagerClient.decrypt, autolock_forward_eq, Core.impl]
    rw [hperform]
  refine ⟨by rw [hval], by rw [hval]; simp, by rw [hval], ?_⟩
  obtain ⟨sys1, hstep, _⟩ := System.step_call_value (Core.impl E) sys i
    (Call.decrypt decryptHandle decryptUnitId encBuffer decBuffer IV) cl hobj
  refine ⟨sys1, ?_⟩
  rw [hstep]
  simp only [Core.impl]
  rw [hperform]

/-- Witness of C3: over the sample surroundings a client is constructed and opens a session,
which gets handle 1; no unit was initialized, and decrypt on unit 0 returns
ProtocolViolation. -/
theorem C3_decrypt_uninitialized_unit_witness :
    System.run (Core.impl Surroundings.sample) sampleOpen (System.init (Core.init ())) =
        some sampleOpened ∧
      sampleOpened.impl.isOpen 1 = true ∧
      unitInitialized 1 0 sampleOpen = false ∧
      (DrmManagerClient.decrypt (Core.impl Surroundings.sample) 1 0 0 0 0
        { self := { mUniqueId := 1, mDrmManagerClientImpl := some 1, mDecryptLock := 0 }
          impl := sampleOpened.impl, trace := sampleOpened.trace }).1 =
        Reply.status Status.protocolViolation :=
  ⟨rfl, by decide, by decide,
    (C3_decrypt_uninitialized_unit Surroundings.sample () sampleOpen sampleOpened 0
      { mUniqueId := 1, mDrmManagerClientImpl := some 1, mDecryptLock := 0 } 1
      { owner := 1, ready := [] } 0 0 0 0 rfl (by decide) (by decide) (by decide)).1⟩

/-- C4: over the core modelled from the specification, closeDecryptSession by a client that
exists on a handle that is open and has a unit in UNIT_READY succeeds, hands the backend the
finalization of every ready unit of the handle (that unit included) followed by the closing of
the session, and leaves the unit not ready and the handle not open; and after it, whatever
constructions, destructions and calls follow, every decrypt on that handle by a client that
exists returns InvalidSession. -/
theorem C4_close_finalizes_and_invalidates {τ : Type} (E : Surroundings τ) (rest : τ)
    (ops : List Op) (sys : System (Core τ)) (i : Nat) (cl : DrmManagerClient)
    (decryptHandle : Ptr) (d : DecryptSession) (decryptUnitId : Int)
    (hrun : System.run (Core.impl E) ops (System.init (Core.init rest)) = some sys)
    (hobj : sys.objects[i]? = some (some cl))
    (hopen : sys.impl.handles decryptHandle = some d)
    (hready : decryptUnitId ∈ d.ready) :
    ∃ sys1, System.step (Core.impl E) sys (Op.call i (Call.closeDecryptSession decryptHandle)) =
        some (some (Reply.status Status.ok), sys1) ∧
      sys1.impl.backendLog =
        sys.impl.backendLog ++ (d.ready.map (BackendCall.finalizeUnit decryptHandle) ++
          [BackendCall.closeSession decryptHandle]) ∧
      BackendCall.finalizeUnit decryptHandle decryptUnitId ∈
        d.ready.map (BackendCall.finalizeUnit decryptHandle) ∧
      sys1.impl.unitReady decryptHandle decryptUnitId = false ∧
      sys1.impl.isOpen decryptHandle = false ∧
      ∀ (ops2 : List Op) (sys2 : System (Core τ)) (j : Nat) (cl2 : DrmManagerClient)
        (unit2 : Int) (encBuffer decBuffer IV : Ptr),
        System.run (Core.impl E) ops2 sys1 = some sys2 →
        sys2.objects[j]? = some (some cl2) →
        (DrmManagerClient.decrypt (Core.impl E) decryptHandle unit2 encBuffer decBuffer IV
          { self := cl2, impl := sys2.impl, trace := sys2.trace }).1 =
          Reply.status Status.invalidSession := by
  have hinv := SysInv.op_run E ops _ sys (SysInv.init rest) hrun
  have hk := hinv.registered i cl hobj
  have hperform := Core.perform_close_open E cl.mUniqueId sys.impl decryptHandle d hk hopen
  obtain ⟨sys1, hstep, himpl⟩ := System.step_call_value (Core.impl E) sys i
    (Call.closeDecryptSession decryptHandle) cl hobj
  have hinv1 := SysInv.op_step E sys sys1 hinv _ _ hstep
  simp only [Core.impl] at hstep himpl
  rw [hperform] at hstep himpl
  have hnone : sys1.impl.handles decryptHandle = none := by
    rw [himpl]
    simp
  have hlt : decryptHandle < sys1.impl.nextHandle := by
    rw [himpl]
    exact hinv.below decryptHandle d hopen
  refine ⟨sys1, hstep, ?_, ?_, ?_, ?_, ?_⟩
  · rw [himpl]
    rfl
  · exact List.mem_map.2 ⟨decryptUnitId, hready, rfl⟩
  · simp [Core.unitReady, readyIn, hnone]
  · simp [Core.isOpen, hnone]
  · intro ops2 sys2 j cl2 unit2 encBuffer decBuffer IV hrun2 hobj2
    have hnone2 := System.run_closed E ops2 sys1 sys2 hinv1 decryptHandle hnone hlt hrun2
    simp only [DrmManagerClient.decrypt, autolock_forward_eq, Core.impl]
    rw [Core.perform_decrypt_closed E cl2.mUniqueId sys2.impl decryptHandle unit2 encBuffer
      decBuffer IV hnone2]

/-- Witness of C4: over the sample surroundings a client opens handle 1 and initializes unit 0;
closing the handle then succeeds. -/
theorem C4_close_finalizes_and_invalidates_witness :
    System.run (Core.impl Surroundings.sample) sampleInit (System.init (Core.init ())) =
        some sampleInitialized ∧
      sampleInitialized.impl.unitReady 1 0 = true ∧
      ∃ sys1, System.step (Core.impl Surroundings.sample) sampleInitialized
          (Op.call 0 (Call.closeDecryptSession 1)) =
        some (some (Reply.status Status.ok), sys1) ∧
        sys1.impl.backendLog =
          [BackendCall.openSession 1, BackendCall.initUnit 1 0, BackendCall.finalizeUnit 1 0,
            BackendCall.closeSession 1] :=
  ⟨rfl, by decide,
    (C4_close_finalizes_and_invalidates Surroundings.sample () sampleInit sampleInitialized 0
      { mUniqueId := 1, mDrmManagerClientImpl := some 1, mDecryptLock := 0 } 1
      { owner := 1, ready := [0] } 0 rfl (by decide) (by decide) (by decide)).elim
      (fun sys1 h => ⟨sys1, h.1, h.2.1.trans (by decide)⟩)⟩
